import Mathlib

/-!
genccont: intrusive singly-linked queue and circular doubly-linked list.

A shallow embedding of `slist_queue.c` (with the `slist.h` / `dlist.h` operations it and the
claims rely on) over an explicit memory model, followed by the properties proved about it.

Pointers to nodes are natural numbers (addresses); a null pointer is `none`.
A `struct slist_head**` is a `Slot`: either the `head` field of a queue object or the
`next` field of a node.
-/

namespace Genccont

/-! ## Memory model for the singly-linked list and the queue -/

/-- A `struct slist_head**`: the address of a place holding a node pointer. It is either
`&queue->head` for the queue object at address `q`, or `&node->next` for the node at
address `n`. -/
inductive Slot where
  | head (q : Nat) : Slot
  | next (n : Nat) : Slot
deriving DecidableEq

/-- The `struct slist_queue` object: `head` is the first node (or NULL), `tail` is the slot a
pushed-back node is written into. -/
structure slist_queue where
  head : Option Nat
  tail : Slot
deriving DecidableEq

/-- The memory: the `next` field of every node (`struct slist_head`) and every queue object,
both indexed by address. -/
structure Mem where
  next : Nat → Option Nat
  queue : Nat → slist_queue

/-- Reading through a slot: `*slot`. -/
def Mem.load (m : Mem) : Slot → Option Nat
  | .head q => (m.queue q).head
  | .next n => m.next n

/-- Writing through a slot: `*slot = v`. -/
def Mem.store (m : Mem) (slot : Slot) (v : Option Nat) : Mem :=
  match slot with
  | .head q =>
    { m with queue := fun k => if k = q then { m.queue q with head := v } else m.queue k }
  | .next n =>
    { m with next := fun k => if k = n then v else m.next k }

/-- The assignment `queue->tail = t`. -/
def Mem.setTail (m : Mem) (q : Nat) (t : Slot) : Mem :=
  { m with queue := fun k => if k = q then { m.queue q with tail := t } else m.queue k }

/-! ## `slist.h` operations used by the queue -/

/-- Modelled from the spec: `genc_slist_insert_at`, whose body (`slist.c`) is not among the
sources. Spec 4.1: it writes `new_entry` into the slot and sets `new_entry.next` to the link
previously held there. `slist.h` declares it `void`, yet `genc_slq_push_back` assigns its
value to the queue's tail; that value is taken to be the slot of `new_entry`'s own `next` field
(spec 4.2, `push_back`: the tail slot is advanced to the node's own next field). -/
def genc_slist_insert_at (m : Mem) (new_entry : Nat) (slot : Slot) : Mem × Slot :=
  let old := m.load slot
  let m1 := m.store slot (some new_entry)
  (m1.store (.next new_entry) old, .next new_entry)

/-- Modelled from the spec: `genc_slist_remove_at`, whose body (`slist.c`) is not among the
sources. Spec 4.1: if `*slot` is none it returns none and changes nothing; otherwise it writes
`(*slot).next` into `*slot`, sets the removed node's `next` to none and returns the node. -/
def genc_slist_remove_at (m : Mem) (slot : Slot) : Mem × Option Nat :=
  match m.load slot with
  | none => (m, none)
  | some r =>
    let m1 := m.store slot (m.next r)
    (m1.store (.next r) none, some r)

/-! ## `slist_queue.c` -/

/-- `genc_slq_init`: `queue->head = NULL; queue->tail = &queue->head;`. -/
def genc_slq_init (m : Mem) (q : Nat) : Mem :=
  (m.store (.head q) none).setTail q (.head q)

/-- `genc_slq_push_back`: `queue->tail = genc_slist_insert_at(new_item, queue->tail);`. -/
def genc_slq_push_back (m : Mem) (q : Nat) (new_item : Nat) : Mem :=
  let r := genc_slist_insert_at m new_item (m.queue q).tail
  r.1.setTail q r.2

/-- `genc_slq_push_front`: on an empty queue it calls `genc_slq_push_back`, otherwise it
inserts at `&queue->head` and discards the value of `genc_slist_insert_at`. -/
def genc_slq_push_front (m : Mem) (q : Nat) (new_item : Nat) : Mem :=
  match (m.queue q).head with
  | none => genc_slq_push_back m q new_item
  | some _ => (genc_slist_insert_at m new_item (.head q)).1

/-- `genc_slq_pop_front`: removes at `&queue->head`; returns NULL when nothing was removed;
when the head has become NULL the tail is reset to `&queue->head`. -/
def genc_slq_pop_front (m : Mem) (q : Nat) : Mem × Option Nat :=
  let r := genc_slist_remove_at m (.head q)
  match r.2 with
  | none => (r.1, none)
  | some removed =>
    match (r.1.queue q).head with
    | none => (r.1.setTail q (.head q), some removed)
    | some _ => (r.1, some removed)

/-- `genc_slq_is_empty`: the C value of `!queue->head`. -/
def genc_slq_is_empty (m : Mem) (q : Nat) : Int :=
  match (m.queue q).head with
  | none => 1
  | some _ => 0

/-- `genc_slq_swap`: nothing when both arguments are the same queue; otherwise the two queue
objects are exchanged and a tail that points at the other queue's head is redirected to the
queue's own head. -/
def genc_slq_swap (m : Mem) (queue1 queue2 : Nat) : Mem :=
  if queue1 = queue2 then m
  else
    let tmp_q := m.queue queue1
    let m1 : Mem := { m with queue := fun k => if k = queue1 then m.queue queue2 else m.queue k }
    let m2 : Mem := { m1 with queue := fun k => if k = queue2 then tmp_q else m1.queue k }
    let m3 : Mem :=
      if (m2.queue queue1).tail = .head queue2 then m2.setTail queue1 (.head queue1) else m2
    if (m3.queue queue2).tail = .head queue1 then m3.setTail queue2 (.head queue2) else m3

/-! ## Derived drivers: repeated calls -/

/-- Calls `genc_slq_push_back` for each node of the list, in order. -/
def push_back_all (m : Mem) (q : Nat) : List Nat → Mem
  | [] => m
  | n :: ns => push_back_all (genc_slq_push_back m q n) q ns

/-- Calls `genc_slq_pop_front` `k` times and collects the returned pointers in call order. -/
def pop_front_n (m : Mem) (q : Nat) : Nat → Mem × List (Option Nat)
  | 0 => (m, [])
  | k + 1 =>
    let r := genc_slq_pop_front m q
    let rest := pop_front_n r.1 q k
    (rest.1, r.2 :: rest.2)

/-- The loop `while (!genc_slq_is_empty(q)) genc_slq_pop_front(q);` with a bound on the number
of iterations; `none` when the bound is reached with the queue still non-empty. -/
def drain (m : Mem) (q : Nat) : Nat → Option Mem
  | 0 => if genc_slq_is_empty m q ≠ 0 then some m else none
  | fuel + 1 =>
    if genc_slq_is_empty m q ≠ 0 then some m
    else drain (genc_slq_pop_front m q).1 q fuel

/-! ## The tail-slot invariant -/

/-- The list segment: following `next` from the pointer `h` visits exactly the nodes of `l`, in
order, and the `next` field of the last one (or `h` itself when `l` is empty) is `e`. -/
def lseg (next : Nat → Option Nat) : Option Nat → List Nat → Option Nat → Prop
  | h, [], e => h = e
  | h, n :: l, e => h = some n ∧ lseg next (next n) l e

instance lseg.decide (next : Nat → Option Nat) :
    (h : Option Nat) → (l : List Nat) → (e : Option Nat) → Decidable (lseg next h l e)
  | h, [], e => inferInstanceAs (Decidable (h = e))
  | h, n :: l, e =>
    have := lseg.decide next (next n) l e
    inferInstanceAs (Decidable (h = some n ∧ lseg next (next n) l e))

/-- The slot a queue at `q` with front-to-back contents `s` must cache as its tail: its own
head slot when empty, otherwise the `next` field of the last node. -/
def tailSlotOf (q : Nat) (s : List Nat) : Slot :=
  match s.getLast? with
  | none => .head q
  | some last => .next last

/-- The queue at `q` holds the front-to-back node sequence `s` and satisfies the tail-slot
invariant: the chain from `head` is `s` and ends in NULL, and `tail` is the slot
`tailSlotOf q s`. -/
def QueueInv (m : Mem) (q : Nat) (s : List Nat) : Prop :=
  lseg m.next (m.queue q).head s none ∧ (m.queue q).tail = tailSlotOf q s

instance QueueInv.decide (m : Mem) (q : Nat) (s : List Nat) : Decidable (QueueInv m q s) :=
  inferInstanceAs (Decidable (_ ∧ _))

/-- The tail-slot invariant as the data model words it: if `head` is none the tail slot is the
queue's own head slot; otherwise the chain from `head` is finite, the tail slot is the `next`
field of its last node, and that field holds none. -/
def TailSlotInv (m : Mem) (q : Nat) : Prop :=
  match (m.queue q).head with
  | none => (m.queue q).tail = .head q
  | some h =>
    ∃ l last, lseg m.next (some h) (l ++ [last]) none ∧
      (m.queue q).tail = .next last ∧ m.next last = none

/-- No slot holds `n`: it is not the head of any of the queues `qs`, and no node's `next` field
points to it. -/
def Unlinked (qs : List Nat) (m : Mem) (n : Nat) : Prop :=
  (∀ q ∈ qs, (m.queue q).head ≠ some n) ∧ ∀ x, m.next x ≠ some n

/-- The memory states reachable by queue operations, together with the queues that have been
set up by `genc_slq_init`. The starting memory is arbitrary. Pushed nodes are not linked
anywhere; every operation acts on initialised queues. -/
inductive Reach : List Nat → Mem → Prop where
  | start (m : Mem) : Reach [] m
  | init {qs m} (q : Nat) : Reach qs m → Reach (q :: qs) (genc_slq_init m q)
  | push_back {qs m} (q n : Nat) : Reach qs m → q ∈ qs → Unlinked qs m n →
      Reach qs (genc_slq_push_back m q n)
  | push_front {qs m} (q n : Nat) : Reach qs m → q ∈ qs → Unlinked qs m n →
      Reach qs (genc_slq_push_front m q n)
  | pop_front {qs m} (q : Nat) : Reach qs m → q ∈ qs →
      Reach qs (genc_slq_pop_front m q).1
  | swap {qs m} (q1 q2 : Nat) : Reach qs m → q1 ∈ qs → q2 ∈ qs →
      Reach qs (genc_slq_swap m q1 q2)

/-- A small concrete memory: every `next` field NULL, every queue object zeroed in the sense
of `head = NULL`, `tail = &queue->head`. -/
def mem0 : Mem :=
  { next := fun _ => none, queue := fun k => { head := none, tail := .head k } }

/-- All initialised queues satisfy the invariant with contents given by `c`, and the contents
of distinct queues share no node. -/
def Good (qs : List Nat) (m : Mem) (c : Nat → List Nat) : Prop :=
  (∀ q ∈ qs, QueueInv m q (c q)) ∧
  ∀ q1 ∈ qs, ∀ q2 ∈ qs, q1 ≠ q2 → ∀ x ∈ c q1, x ∉ c q2

/-- A queue at address 0 holding the nodes 10 and 20, pushed to the back in that order. -/
def memTwo : Mem := push_back_all (genc_slq_init mem0 0) 0 [10, 20]

/-- Two initialised queues: the one at address 0 is empty, the one at address 1 holds the
nodes 10 and 20. -/
def memPair : Mem := push_back_all (genc_slq_init (genc_slq_init mem0 0) 1) 1 [10, 20]

/-- The memory after `init 0`, `init 1`, `push_back(0, 10)`, `push_front(0, 20)`,
`pop_front(0)` and `swap(0, 1)`, starting from `mem0`. -/
def memRun : Mem :=
  genc_slq_swap
    (genc_slq_pop_front
      (genc_slq_push_front
        (genc_slq_push_back (genc_slq_init (genc_slq_init mem0 0) 1) 0 10) 0 20) 0).1 0 1

/-! ## Memory model and operations of the circular doubly-linked list (`dlist.h`) -/

/-- The `next` and `prev` fields of every `struct dlist_head`, indexed by address. -/
structure DMem where
  next : Nat → Nat
  prev : Nat → Nat

/-- The assignment `a->next = v`. -/
def DMem.setNext (m : DMem) (a v : Nat) : DMem :=
  { m with next := fun k => if k = a then v else m.next k }

/-- The assignment `a->prev = v`. -/
def DMem.setPrev (m : DMem) (a v : Nat) : DMem :=
  { m with prev := fun k => if k = a then v else m.prev k }

/-- Modelled from the spec: `genc_dlist_init`, declared in `dlist.h` with its body
(`dlist.c`) not among the sources. Spec 4.3: it makes the sentinel self-referential,
`next = prev = sentinel`. -/
def genc_dlist_init (m : DMem) (head : Nat) : DMem :=
  (m.setNext head head).setPrev head head

/-- Modelled from the spec: `genc_dlist_is_empty`, declared in `dlist.h` with its body not
among the sources. Spec 4.3: true iff `list.next == list`; `dlist.h`: non-zero (1) if empty,
0 otherwise. -/
def genc_dlist_is_empty (m : DMem) (list : Nat) : Int :=
  if m.next list = list then 1 else 0

/-- Modelled from the spec: `genc_dlist_insert_before`, declared in `dlist.h` with its body
not among the sources. Spec 4.3: sets `new_node.prev = before.prev`, `new_node.next = before`,
then rewrites the two neighbouring references (the `next` of the old predecessor and
`before.prev`) to point at `new_node`. -/
def genc_dlist_insert_before (m : DMem) (new_entry before : Nat) : DMem :=
  let p := m.prev before
  (((m.setPrev new_entry p).setNext new_entry before).setNext p new_entry).setPrev
    before new_entry

/-- Modelled from the spec: `genc_dlist_insert_after`, declared in `dlist.h` with its body
not among the sources. Spec 4.3: the symmetric counterpart of `insert_before`: sets
`new_node.next = after.next`, `new_node.prev = after`, then points the `prev` of the old
successor and `after.next` at `new_node`. -/
def genc_dlist_insert_after (m : DMem) (new_entry after : Nat) : DMem :=
  let n := m.next after
  (((m.setNext new_entry n).setPrev new_entry after).setPrev n new_entry).setNext
    after new_entry

/-- Modelled from the spec: `genc_dlist_remove`, declared in `dlist.h` with its body not among
the sources. Spec 4.3: unconditionally reconnects `entry.prev` and `entry.next` to each other,
bypassing `entry`, and returns `entry`; the fields of `entry` itself are left as they are. -/
def genc_dlist_remove (m : DMem) (entry : Nat) : DMem × Nat :=
  let p := m.prev entry
  let n := m.next entry
  ((m.setNext p n).setPrev n p, entry)

/-- The loop of `genc_dlist_find_in_range` from the node `cur` on, with a bound on the number
of iterations: `none` when the bound is used up, `some none` for the C result NULL. -/
def find_in_range_loop {δ : Type} (m : DMem) (end_before : Nat) (pred : Nat → δ → Int)
    (data : δ) : Nat → Nat → Option (Option Nat)
  | 0, _ => none
  | fuel + 1, cur =>
    if cur = end_before then some none
    else if pred cur data ≠ 0 then some (some cur)
    else find_in_range_loop m end_before pred data fuel (m.next cur)

/-- Modelled from the spec: `genc_dlist_find_in_range`, declared in `dlist.h` with its body
not among the sources. Spec 4.3: scans from `start_after.next` up to, but not including,
`end_before`, returning the first node for which `pred(node, data)` is non-zero, or NULL if the
boundary is reached first. -/
def genc_dlist_find_in_range {δ : Type} (fuel : Nat) (m : DMem) (start_after end_before : Nat)
    (pred : Nat → δ → Int) (data : δ) : Option (Option Nat) :=
  find_in_range_loop m end_before pred data fuel (m.next start_after)

/-- The doubly-linked segment: following `next` from `a` visits exactly the nodes of `l`, in
order, and then `b`; each visited node (and `b`) points back with `prev` to the node it was
reached from. -/
def dseg (m : DMem) : Nat → List Nat → Nat → Prop
  | a, [], b => m.next a = b ∧ m.prev b = a
  | a, x :: l, b => m.next a = x ∧ m.prev x = a ∧ dseg m x l b

instance dseg.decide (m : DMem) :
    (a : Nat) → (l : List Nat) → (b : Nat) → Decidable (dseg m a l b)
  | a, [], b => inferInstanceAs (Decidable (m.next a = b ∧ m.prev b = a))
  | a, x :: l, b =>
    have := dseg.decide m x l b
    inferInstanceAs (Decidable (m.next a = x ∧ m.prev x = a ∧ dseg m x l b))

/-- A well-formed ring with sentinel `h` whose forward traversal yields the data nodes `l`:
the segment from `h` through `l` returns to `h`, and all its nodes are distinct. -/
def Ring (m : DMem) (h : Nat) (l : List Nat) : Prop :=
  dseg m h l h ∧ (h :: l).Nodup

instance Ring.decide (m : DMem) (h : Nat) (l : List Nat) : Decidable (Ring m h l) :=
  inferInstanceAs (Decidable (_ ∧ _))

/-- The node `x` belongs to the ring of the sentinel `h`: it is reached from `h` by following
`next` some number of times (zero times for `h` itself). -/
def InRing (m : DMem) (h x : Nat) : Prop :=
  ∃ k : Nat, Nat.iterate m.next k h = x

/-- The memory states reachable from a sentinel `h` set up by `genc_dlist_init` by inserting
nodes that are not in the ring before or after a node of the ring, and removing non-sentinel
nodes of the ring. -/
inductive DReach (h : Nat) : DMem → Prop where
  | init (m : DMem) : DReach h (genc_dlist_init m h)
  | insert_before {m} (new_entry pos : Nat) : DReach h m → ¬ InRing m h new_entry →
      InRing m h pos → DReach h (genc_dlist_insert_before m new_entry pos)
  | insert_after {m} (new_entry pos : Nat) : DReach h m → ¬ InRing m h new_entry →
      InRing m h pos → DReach h (genc_dlist_insert_after m new_entry pos)
  | remove {m} (entry : Nat) : DReach h m → InRing m h entry → entry ≠ h →
      DReach h (genc_dlist_remove m entry).1

/-- Exchanging the roles of `next` and `prev`. -/
def DMem.flip (m : DMem) : DMem := { next := m.prev, prev := m.next }

/-- A memory in which every node points to address 0 in both directions. -/
def dmem0 : DMem := { next := fun _ => 0, prev := fun _ => 0 }

/-- The ring with sentinel 0 and data nodes 1, 2, 3, built by appending each before the
sentinel. -/
def dmemABC : DMem :=
  genc_dlist_insert_before
    (genc_dlist_insert_before (genc_dlist_insert_before (genc_dlist_init dmem0 0) 1 0) 2 0) 3 0

/-- A predicate that matches exactly the node whose address is `data`. -/
def predIs (entry : Nat) (data : Nat) : Int := if entry = data then 1 else 0

/-- A predicate that matches nothing. -/
def predNever (_entry : Nat) (_data : Nat) : Int := 0

/-- The memory after `init`, `insert_before(1, sentinel)`, `insert_after(2, sentinel)` and
`remove(1)` on the sentinel at address 0, starting from `dmem0`. -/
def dmemRun : DMem :=
  (genc_dlist_remove
    (genc_dlist_insert_after
      (genc_dlist_insert_before (genc_dlist_init dmem0 0) 1 0) 2 0) 1).1

/-- The forward traversal of a doubly-linked list with sentinel `h`: the nodes met from `cur`
on by following `next` until `h` is reached, with a bound on the number of steps. -/
def dlist_forward (m : DMem) (h : Nat) : Nat → Nat → Option (List Nat)
  | 0, _ => none
  | fuel + 1, cur =>
    if cur = h then some []
    else (dlist_forward m h fuel (m.next cur)).map (fun t => cur :: t)

/-- The memory states reachable from a sentinel `h` set up by `genc_dlist_init`, together with
the inserted nodes that have not been removed since: insertions are of nodes not in the ring,
relative to a node of the ring; removals are of inserted nodes that are still linked. -/
inductive DLive (h : Nat) : DMem → List Nat → Prop where
  | init (m : DMem) : DLive h (genc_dlist_init m h) []
  | insert_before {m live} (new_entry pos : Nat) : DLive h m live →
      ¬ InRing m h new_entry → InRing m h pos →
      DLive h (genc_dlist_insert_before m new_entry pos) (new_entry :: live)
  | insert_after {m live} (new_entry pos : Nat) : DLive h m live →
      ¬ InRing m h new_entry → InRing m h pos →
      DLive h (genc_dlist_insert_after m new_entry pos) (new_entry :: live)
  | remove {m live} (entry : Nat) : DLive h m live → entry ∈ live →
      DLive h (genc_dlist_remove m entry).1 (live.erase entry)

/-- The list with sentinel 0 after `insert_before(1, 0)`, `insert_after(2, 0)`, `remove(1)`
and `remove(2)`: every inserted node has been removed again. -/
def dmemDone : DMem := (genc_dlist_remove dmemRun 2).1

/-- The slot that holds the node following the nodes `l1` of a chain reached through the slot
`s0`: `s0` itself when `l1` is empty, otherwise the `next` field of the last node of `l1`. -/
def slotAfter (s0 : Slot) (l1 : List Nat) : Slot :=
  match l1.getLast? with
  | none => s0
  | some p => .next p

/-- The list head variable at address 0 holding the chain 10, 20, 30, 40. -/
def memFour : Mem := push_back_all (genc_slq_init mem0 0) 0 [10, 20, 30, 40]

/-! ## Recovery of the enclosing record, typed macros and removing loops -/

/-- `genc_container_of_helper` of `slist.h`: `obj ? ((char*)obj - offset) : NULL`. The member
pointer is NULL (`none`) or an address; the result is NULL or the address `obj - offset`. -/
def genc_container_of_helper (obj : Option Nat) (offset : Int) : Option Int :=
  match obj with
  | none => none
  | some p => some ((p : Int) - offset)

/-- The macro `genc_slist_next(cur, list_type, list_head_member_name)`: the record enclosing
the node that follows the list head embedded at `offset` in the record `cur`. -/
def genc_slist_next (m : Mem) (cur : Int) (offset : Int) : Option Int :=
  genc_container_of_helper (m.next (cur + offset).toNat) offset

/-- The macro `genc_slist_remove_object_at(at, list_type, list_head_member_name)`:
`genc_container_of(genc_slist_remove_at(at), ...)`. -/
def genc_slist_remove_object_at (m : Mem) (slot : Slot) (offset : Int) : Mem × Option Int :=
  let r := genc_slist_remove_at m slot
  (r.1, genc_container_of_helper r.2 offset)

/-- The macro `genc_slist_for_each_remove`: a `for` loop whose initialisation and step both
assign `genc_slist_remove_object_at(list_head, ...)` to the loop variable and whose condition
is the loop variable being non-NULL. The body receives its own state, the memory and the loop
variable, and returns its new state and whether it executes `break`. The first argument
bounds the number of removal attempts; `none` when the bound is used up. -/
def genc_slist_for_each_remove {σ : Type} (body : σ → Mem → Int → σ × Bool)
    (list_head : Slot) (offset : Int) : Nat → Mem → σ → Option (Mem × σ)
  | 0, _, _ => none
  | fuel + 1, m, st =>
    let r := genc_slist_remove_object_at m list_head offset
    match r.2 with
    | none => some (r.1, st)
    | some removed_element =>
      let b := body st r.1 removed_element
      if b.2 then some (r.1, b.1)
      else genc_slist_for_each_remove body list_head offset fuel r.1 b.1

/-- A loop body for `genc_slist_for_each_remove` that appends to its state the loop variable
together with the `next` field of that record's list head as it is on entry to the body, and
executes `break` in its `k`-th execution (never when `k = 0`). -/
def slistLogBody (k : Nat) (offset : Int) (st : List (Int × Option Nat)) (m : Mem)
    (removed_element : Int) : List (Int × Option Nat) × Bool :=
  (st ++ [(removed_element, m.next (removed_element + offset).toNat)],
    decide (st.length + 1 = k))

/-- Modelled from the spec: `genc_slist_find_entry`, declared in `slist.h` with its body not
among the sources. Spec 4.1: begins at `start` and returns the first node, `start` included,
for which `pred(node)` is non-zero; none if no match exists before the chain ends. The first
argument bounds the number of nodes looked at; `none` when the bound is used up. -/
def genc_slist_find_entry (pred : Nat → Int) (m : Mem) : Nat → Option Nat → Option (Option Nat)
  | 0, _ => none
  | _ + 1, none => some none
  | fuel + 1, some n =>
    if pred n ≠ 0 then some (some n) else genc_slist_find_entry pred m fuel (m.next n)

/-- Modelled from the spec: `genc_slist_find_entry_ref`, declared in `slist.h` with its body
not among the sources. Spec 4.1: the same matching rule over slots: it returns the slot that
holds the first matching node, or the slot holding none at the chain's end if no node matches.
The first argument bounds the number of slots looked at. -/
def genc_slist_find_entry_ref (pred : Nat → Int) (m : Mem) : Nat → Slot → Option Slot
  | 0, _ => none
  | fuel + 1, slot =>
    match m.load slot with
    | none => some slot
    | some n =>
      if pred n ≠ 0 then some slot else genc_slist_find_entry_ref pred m fuel (.next n)

/-- The macro `genc_dlist_remove_object(entry, list_type, list_head_member_name)`:
`genc_container_of(genc_dlist_remove(entry), ...)`. -/
def genc_dlist_remove_object (m : DMem) (entry : Nat) (offset : Int) : DMem × Option Int :=
  let r := genc_dlist_remove m entry
  (r.1, genc_container_of_helper (some r.2) offset)

/-- The macro `genc_dlist_for_each_remove`: a `for` loop whose initialisation and step both
assign `genc_dlist_is_empty(list_head) ? NULL : genc_dlist_remove_object((list_head)->next,
...)` to the loop variable and whose condition is the loop variable being non-NULL. The body
receives its own state, the memory and the loop variable, and returns its new state and
whether it executes `break`. The first argument bounds the number of removal attempts. -/
def genc_dlist_for_each_remove {σ : Type} (body : σ → DMem → Int → σ × Bool)
    (list_head : Nat) (offset : Int) : Nat → DMem → σ → Option (DMem × σ)
  | 0, _, _ => none
  | fuel + 1, m, st =>
    let r : DMem × Option Int :=
      if genc_dlist_is_empty m list_head ≠ 0 then (m, none)
      else genc_dlist_remove_object m (m.next list_head) offset
    match r.2 with
    | none => some (r.1, st)
    | some removed_element =>
      let b := body st r.1 removed_element
      if b.2 then some (r.1, b.1)
      else genc_dlist_for_each_remove body list_head offset fuel r.1 b.1

/-- A loop body for `genc_dlist_for_each_remove` that appends the loop variable to its state
and executes `break` in its `k`-th execution (never when `k = 0`). -/
def dlistLogBody (k : Nat) (st : List Int) (_m : DMem) (removed_element : Int) :
    List Int × Bool :=
  (st ++ [removed_element], decide (st.length + 1 = k))

/-- `genc_slq_push_back` over an arbitrary implementation `ins` of `genc_slist_insert_at`:
`queue->tail = ins(new_item, queue->tail);`. -/
def push_back_via (ins : Mem → Nat → Slot → Mem × Slot) (m : Mem) (q : Nat)
    (new_item : Nat) : Mem :=
  let r := ins m new_item (m.queue q).tail
  r.1.setTail q r.2

/-! ## List segments -/

@[simp] theorem lseg_nil (next : Nat → Option Nat) (h e : Option Nat) :
    lseg next h [] e ↔ h = e := Iff.rfl

@[simp] theorem lseg_cons (next : Nat → Option Nat) (h e : Option Nat) (n : Nat) (l : List Nat) :
    lseg next h (n :: l) e ↔ h = some n ∧ lseg next (next n) l e := Iff.rfl

theorem lseg_append (next : Nat → Option Nat) (l1 l2 : List Nat) (h e : Option Nat) :
    lseg next h (l1 ++ l2) e ↔ ∃ mid, lseg next h l1 mid ∧ lseg next mid l2 e := by
  induction l1 generalizing h with
  | nil => simp
  | cons a l ih =>
    rw [List.cons_append, lseg_cons, ih]
    constructor
    · rintro ⟨ha, mid, h1, h2⟩
      exact ⟨mid, (lseg_cons ..).mpr ⟨ha, h1⟩, h2⟩
    · rintro ⟨mid, h1, h2⟩
      rw [lseg_cons] at h1
      exact ⟨h1.1, mid, h1.2, h2⟩

theorem lseg_snoc (next : Nat → Option Nat) (l : List Nat) (x : Nat) (h e : Option Nat) :
    lseg next h (l ++ [x]) e ↔ lseg next h l (some x) ∧ next x = e := by
  rw [lseg_append]
  constructor
  · rintro ⟨mid, h1, h2⟩
    simp only [lseg_cons, lseg_nil] at h2
    rw [h2.1] at h1
    exact ⟨h1, h2.2⟩
  · rintro ⟨h1, h2⟩
    exact ⟨some x, h1, by simp [h2]⟩

theorem lseg_frame (next : Nat → Option Nat) (x : Nat) (v : Option Nat) (l : List Nat)
    (h e : Option Nat) (hx : x ∉ l) :
    lseg (fun k => if k = x then v else next k) h l e ↔ lseg next h l e := by
  induction l generalizing h with
  | nil => simp
  | cons a l ih =>
    simp only [List.mem_cons, not_or] at hx
    have hax : a ≠ x := fun hh => hx.1 hh.symm
    simp only [lseg_cons, if_neg hax, ih _ hx.2]

theorem lseg_unique (next : Nat → Option Nat) (l1 l2 : List Nat) (h : Option Nat)
    (h1 : lseg next h l1 none) (h2 : lseg next h l2 none) : l1 = l2 := by
  induction l1 generalizing h l2 with
  | nil =>
    cases l2 with
    | nil => rfl
    | cons b l2 =>
      simp only [lseg_cons, lseg_nil] at h1 h2
      rw [h1] at h2
      exact absurd h2.1 (by simp)
  | cons a l1 ih =>
    cases l2 with
    | nil =>
      simp only [lseg_cons, lseg_nil] at h1 h2
      rw [h2] at h1
      exact absurd h1.1 (by simp)
    | cons b l2 =>
      simp only [lseg_cons, lseg_nil] at h1 h2
      have hab : a = b := by
        have := h1.1.symm.trans h2.1
        simpa using this
      subst hab
      rw [ih l2 _ h1.2 h2.2]

theorem lseg_suffix (next : Nat → Option Nat) (l1 l2 : List Nat) (x : Nat) (h e : Option Nat)
    (hl : lseg next h (l1 ++ x :: l2) e) : lseg next (some x) (x :: l2) e := by
  rw [lseg_append] at hl
  obtain ⟨mid, _, h2⟩ := hl
  simp only [lseg_cons] at h2 ⊢
  exact ⟨trivial, h2.2⟩

theorem lseg_nodup (next : Nat → Option Nat) (l : List Nat) (h : Option Nat)
    (hl : lseg next h l none) : l.Nodup := by
  induction l generalizing h with
  | nil => exact List.nodup_nil
  | cons a l ih =>
    have hl2 := hl
    simp only [lseg_cons, lseg_nil] at hl2
    refine List.nodup_cons.mpr ⟨?_, ih _ hl2.2⟩
    intro ha
    obtain ⟨l1, l2, rfl⟩ := List.append_of_mem ha
    have hs := lseg_suffix next l1 l2 a _ none hl2.2
    have hfull : lseg next (some a) (a :: (l1 ++ a :: l2)) none :=
      (lseg_cons ..).mpr ⟨rfl, hl2.2⟩
    have := lseg_unique next _ _ _ hs hfull
    have hlen := congrArg List.length this
    simp at hlen
    omega

theorem lseg_mem_linked (next : Nat → Option Nat) (l : List Nat) (h e : Option Nat) (n : Nat)
    (hl : lseg next h l e) (hn : n ∈ l) : h = some n ∨ ∃ x, next x = some n := by
  induction l generalizing h with
  | nil => simp at hn
  | cons a l ih =>
    simp only [lseg_cons, lseg_nil] at hl
    rcases List.mem_cons.mp hn with rfl | hn
    · exact Or.inl hl.1
    · rcases ih _ hl.2 hn with h1 | h1
      · exact Or.inr ⟨a, h1⟩
      · exact Or.inr h1

theorem nil_or_snoc (s : List Nat) : s = [] ∨ ∃ l x, s = l ++ [x] := by
  rcases List.eq_nil_or_concat s with h | ⟨l, x, h⟩
  · exact Or.inl h
  · exact Or.inr ⟨l, x, by simpa using h⟩

theorem tailSlotOf_nil (q : Nat) : tailSlotOf q [] = .head q := rfl

theorem tailSlotOf_snoc (q : Nat) (l : List Nat) (x : Nat) :
    tailSlotOf q (l ++ [x]) = .next x := by
  simp [tailSlotOf]

theorem tailSlotOf_cons_cons (q : Nat) (a b : Nat) (l : List Nat) :
    tailSlotOf q (a :: b :: l) = tailSlotOf q (b :: l) := by
  simp [tailSlotOf, List.getLast?_cons_cons]

theorem tailSlotOf_ne_nil (q k : Nat) (s : List Nat) (hs : s ≠ []) :
    tailSlotOf q s = tailSlotOf k s := by
  obtain ⟨l, x, rfl⟩ := (nil_or_snoc s).resolve_left hs
  simp [tailSlotOf]

theorem lseg_congr (next1 next2 : Nat → Option Nat) (l : List Nat) (h e : Option Nat)
    (hx : ∀ x ∈ l, next1 x = next2 x) : lseg next1 h l e ↔ lseg next2 h l e := by
  induction l generalizing h with
  | nil => simp
  | cons a l ih =>
    rw [lseg_cons, lseg_cons, hx a (List.mem_cons_self a l),
      ih _ (fun x hxl => hx x (List.mem_cons_of_mem a hxl))]

/-! ## Effect of the queue operations on the invariant -/

theorem push_back_next_nil (m : Mem) (q n : Nat) (ht : (m.queue q).tail = .head q)
    (hh : (m.queue q).head = none) :
    (genc_slq_push_back m q n).next = (fun k => if k = n then none else m.next k) ∧
    (genc_slq_push_back m q n).queue =
      (fun k => if k = q then { head := some n, tail := .next n } else m.queue k) := by
  constructor
  · funext k
    simp [genc_slq_push_back, genc_slist_insert_at, Mem.store, Mem.setTail, Mem.load, ht, hh]
  · funext k
    by_cases hk : k = q <;>
      simp [genc_slq_push_back, genc_slist_insert_at, Mem.store, Mem.setTail, Mem.load, ht, hk]

theorem push_back_next_snoc (m : Mem) (q n last : Nat) (ht : (m.queue q).tail = .next last) :
    (genc_slq_push_back m q n).next =
      (fun k => if k = n then m.next last else if k = last then some n else m.next k) ∧
    (genc_slq_push_back m q n).queue =
      (fun k => if k = q then { m.queue q with tail := .next n } else m.queue k) := by
  constructor
  · funext k
    simp [genc_slq_push_back, genc_slist_insert_at, Mem.store, Mem.setTail, Mem.load, ht]
  · funext k
    by_cases hk : k = q <;>
      simp [genc_slq_push_back, genc_slist_insert_at, Mem.store, Mem.setTail, Mem.load, ht, hk]

theorem push_back_inv (m : Mem) (q n : Nat) (s : List Nat) (hq : QueueInv m q s)
    (hn : n ∉ s) : QueueInv (genc_slq_push_back m q n) q (s ++ [n]) := by
  obtain ⟨hc, ht⟩ := hq
  rcases nil_or_snoc s with rfl | ⟨l, last, rfl⟩
  · rw [lseg_nil] at hc
    rw [tailSlotOf_nil] at ht
    obtain ⟨h1, h2⟩ := push_back_next_nil m q n ht hc
    refine ⟨?_, ?_⟩
    · rw [h1, h2]
      simp
    · rw [h2]
      simp [tailSlotOf]
  · rw [tailSlotOf_snoc] at ht
    obtain ⟨h1, h2⟩ := push_back_next_snoc m q n last ht
    have hnd := lseg_nodup _ _ _ hc
    rw [lseg_snoc] at hc
    have hnl : n ∉ l := fun hh => hn (List.mem_append_left _ hh)
    have hne : n ≠ last := fun hh => hn (by simp [hh])
    have hll : last ∉ l := by
      intro hh
      have := List.nodup_append.mp hnd
      exact this.2.2 hh (List.mem_singleton_self last)
    refine ⟨?_, ?_⟩
    · rw [h1, h2, lseg_snoc, lseg_snoc]
      refine ⟨⟨?_, by simp [hne.symm]⟩, by simp [hc.2]⟩
      simp only [if_true]
      refine (lseg_congr _ m.next l _ _ ?_).mpr hc.1
      intro x hx
      have hxn : x ≠ n := fun hh => hnl (hh ▸ hx)
      have hxl : x ≠ last := fun hh => hll (hh ▸ hx)
      simp [hxn, hxl]
    · rw [h2]
      simp [tailSlotOf]

theorem push_back_other (m : Mem) (q k n : Nat) (s t : List Nat) (hk : k ≠ q)
    (hq : QueueInv m q s) (hkt : QueueInv m k t) (hn : n ∉ t) (hd : ∀ x ∈ s, x ∉ t) :
    QueueInv (genc_slq_push_back m q n) k t := by
  obtain ⟨hc, ht⟩ := hq
  obtain ⟨hkc, hktl⟩ := hkt
  rcases nil_or_snoc s with rfl | ⟨l, last, rfl⟩
  · rw [lseg_nil] at hc
    rw [tailSlotOf_nil] at ht
    obtain ⟨h1, h2⟩ := push_back_next_nil m q n ht hc
    refine ⟨?_, ?_⟩
    · rw [h1, h2]
      simp only [if_neg hk]
      refine (lseg_congr _ m.next t _ _ ?_).mpr hkc
      intro x hx
      have hxn : x ≠ n := fun hh => hn (hh ▸ hx)
      simp [hxn]
    · rw [h2]
      simpa [hk] using hktl
  · rw [tailSlotOf_snoc] at ht
    obtain ⟨h1, h2⟩ := push_back_next_snoc m q n last ht
    have hlt : last ∉ t := hd last (by simp)
    refine ⟨?_, ?_⟩
    · rw [h1, h2]
      simp only [if_neg hk]
      refine (lseg_congr _ m.next t _ _ ?_).mpr hkc
      intro x hx
      have hxn : x ≠ n := fun hh => hn (hh ▸ hx)
      have hxl : x ≠ last := fun hh => hlt (hh ▸ hx)
      simp [hxn, hxl]
    · rw [h2]
      simpa [hk] using hktl

theorem push_front_fields (m : Mem) (q n a : Nat) (hh : (m.queue q).head = some a) :
    (genc_slq_push_front m q n).next = (fun k => if k = n then some a else m.next k) ∧
    (genc_slq_push_front m q n).queue =
      (fun k => if k = q then { m.queue q with head := some n } else m.queue k) := by
  constructor
  · funext k
    simp [genc_slq_push_front, genc_slist_insert_at, Mem.store, Mem.load, hh]
  · funext k
    simp [genc_slq_push_front, genc_slist_insert_at, Mem.store, Mem.load, hh]

theorem push_front_empty (m : Mem) (q n : Nat) (hh : (m.queue q).head = none) :
    genc_slq_push_front m q n = genc_slq_push_back m q n := by
  simp [genc_slq_push_front, hh]

theorem push_front_inv (m : Mem) (q n : Nat) (s : List Nat) (hq : QueueInv m q s)
    (hn : n ∉ s) : QueueInv (genc_slq_push_front m q n) q (n :: s) := by
  cases s with
  | nil =>
    have hh : (m.queue q).head = none := by simpa using hq.1
    rw [push_front_empty m q n hh]
    exact push_back_inv m q n [] hq hn
  | cons a l =>
    obtain ⟨hc, ht⟩ := hq
    have hh : (m.queue q).head = some a := ((lseg_cons ..).mp hc).1
    obtain ⟨h1, h2⟩ := push_front_fields m q n a hh
    refine ⟨?_, ?_⟩
    · rw [h1, h2, lseg_cons]
      refine ⟨by simp, ?_⟩
      simp only [if_true]
      rw [hh] at hc
      refine (lseg_congr _ m.next (a :: l) _ _ ?_).mpr hc
      intro x hx
      have hxn : x ≠ n := fun hhh => hn (hhh ▸ hx)
      simp [hxn]
    · rw [h2, tailSlotOf_cons_cons]
      simpa using ht

theorem push_front_other (m : Mem) (q k n : Nat) (s t : List Nat) (hk : k ≠ q)
    (hq : QueueInv m q s) (hkt : QueueInv m k t) (hn : n ∉ t) (hd : ∀ x ∈ s, x ∉ t) :
    QueueInv (genc_slq_push_front m q n) k t := by
  cases s with
  | nil =>
    have hh : (m.queue q).head = none := by simpa using hq.1
    rw [push_front_empty m q n hh]
    exact push_back_other m q k n [] t hk hq hkt hn hd
  | cons a l =>
    have hh : (m.queue q).head = some a := ((lseg_cons ..).mp hq.1).1
    obtain ⟨h1, h2⟩ := push_front_fields m q n a hh
    obtain ⟨hkc, hktl⟩ := hkt
    refine ⟨?_, ?_⟩
    · rw [h1, h2]
      simp only [if_neg hk]
      refine (lseg_congr _ m.next t _ _ ?_).mpr hkc
      intro x hx
      have hxn : x ≠ n := fun hhh => hn (hhh ▸ hx)
      simp [hxn]
    · rw [h2]
      simpa [hk] using hktl

theorem pop_front_empty (m : Mem) (q : Nat) (hh : (m.queue q).head = none) :
    genc_slq_pop_front m q = (m, none) := by
  simp [genc_slq_pop_front, genc_slist_remove_at, Mem.load, hh]

theorem pop_front_fields (m : Mem) (q a : Nat) (hh : (m.queue q).head = some a) :
    (genc_slq_pop_front m q).2 = some a ∧
    (genc_slq_pop_front m q).1.next = (fun k => if k = a then none else m.next k) ∧
    (genc_slq_pop_front m q).1.queue =
      (fun k => if k = q then
          { head := m.next a,
            tail := match m.next a with
              | none => .head q
              | some _ => (m.queue q).tail }
        else m.queue k) := by
  cases hb : m.next a with
  | none =>
    refine ⟨?_, ?_, ?_⟩
    · simp [genc_slq_pop_front, genc_slist_remove_at, Mem.load, Mem.store, Mem.setTail, hh, hb]
    · funext k
      simp [genc_slq_pop_front, genc_slist_remove_at, Mem.load, Mem.store, Mem.setTail, hh, hb]
    · funext k
      by_cases hk : k = q <;>
        simp [genc_slq_pop_front, genc_slist_remove_at, Mem.load, Mem.store, Mem.setTail, hh,
          hb, hk]
  | some b =>
    refine ⟨?_, ?_, ?_⟩
    · simp [genc_slq_pop_front, genc_slist_remove_at, Mem.load, Mem.store, Mem.setTail, hh, hb]
    · funext k
      simp [genc_slq_pop_front, genc_slist_remove_at, Mem.load, Mem.store, Mem.setTail, hh, hb]
    · funext k
      simp [genc_slq_pop_front, genc_slist_remove_at, Mem.load, Mem.store, Mem.setTail, hh, hb]

theorem pop_front_inv (m : Mem) (q a : Nat) (l : List Nat) (hq : QueueInv m q (a :: l)) :
    (genc_slq_pop_front m q).2 = some a ∧ QueueInv (genc_slq_pop_front m q).1 q l := by
  obtain ⟨hc, ht⟩ := hq
  have hnd := lseg_nodup _ _ _ hc
  rw [lseg_cons] at hc
  obtain ⟨h0, h1, h2⟩ := pop_front_fields m q a hc.1
  have hal : a ∉ l := (List.nodup_cons.mp hnd).1
  refine ⟨h0, ?_, ?_⟩
  · rw [h1, h2]
    simp only [if_true]
    refine (lseg_congr _ m.next l _ _ ?_).mpr hc.2
    intro x hx
    have hxa : x ≠ a := fun hhh => hal (hhh ▸ hx)
    simp [hxa]
  · rw [h2]
    cases l with
    | nil =>
      have hb : m.next a = none := by simpa using hc.2
      simp [hb, tailSlotOf]
    | cons b l2 =>
      have hb : m.next a = some b := ((lseg_cons ..).mp hc.2).1
      rw [tailSlotOf_cons_cons] at ht
      simp [hb, ht]

theorem pop_front_other (m : Mem) (q k : Nat) (s t : List Nat) (hk : k ≠ q)
    (hq : QueueInv m q s) (hkt : QueueInv m k t) (hd : ∀ x ∈ s, x ∉ t) :
    QueueInv (genc_slq_pop_front m q).1 k t := by
  cases s with
  | nil =>
    have hh : (m.queue q).head = none := by simpa using hq.1
    rw [pop_front_empty m q hh]
    exact hkt
  | cons a l =>
    have hh : (m.queue q).head = some a := ((lseg_cons ..).mp hq.1).1
    obtain ⟨_, h1, h2⟩ := pop_front_fields m q a hh
    obtain ⟨hkc, hktl⟩ := hkt
    have hat : a ∉ t := hd a (by simp)
    refine ⟨?_, ?_⟩
    · rw [h1, h2]
      simp only [if_neg hk]
      refine (lseg_congr _ m.next t _ _ ?_).mpr hkc
      intro x hx
      have hxa : x ≠ a := fun hhh => hat (hhh ▸ hx)
      simp [hxa]
    · rw [h2]
      simpa [hk] using hktl

theorem swap_fields (m : Mem) (q1 q2 : Nat) (hne : q1 ≠ q2) :
    (genc_slq_swap m q1 q2).next = m.next ∧
    (genc_slq_swap m q1 q2).queue q1 =
      { head := (m.queue q2).head,
        tail := if (m.queue q2).tail = .head q2 then .head q1 else (m.queue q2).tail } ∧
    (genc_slq_swap m q1 q2).queue q2 =
      { head := (m.queue q1).head,
        tail := if (m.queue q1).tail = .head q1 then .head q2 else (m.queue q1).tail } ∧
    ∀ k, k ≠ q1 → k ≠ q2 → (genc_slq_swap m q1 q2).queue k = m.queue k := by
  have hne2 : q2 ≠ q1 := fun h => hne h.symm
  refine ⟨?_, ?_, ?_, ?_⟩
  · unfold genc_slq_swap
    simp only [if_neg hne]
    split_ifs <;> rfl
  · unfold genc_slq_swap
    simp only [if_neg hne, Mem.setTail, if_true, if_neg hne2]
    by_cases ha : (m.queue q2).tail = .head q2 <;>
      by_cases hb : (m.queue q1).tail = .head q1 <;>
        simp [ha, hb, hne, hne2]
  · unfold genc_slq_swap
    simp only [if_neg hne, Mem.setTail, if_true, if_neg hne2]
    by_cases ha : (m.queue q2).tail = .head q2 <;>
      by_cases hb : (m.queue q1).tail = .head q1 <;>
        simp [ha, hb, hne, hne2]
  · intro k hk1 hk2
    unfold genc_slq_swap
    simp only [if_neg hne, Mem.setTail, if_true, if_neg hne2]
    by_cases ha : (m.queue q2).tail = .head q2 <;>
      by_cases hb : (m.queue q1).tail = .head q1 <;>
        simp [ha, hb, hne, hne2, hk1, hk2]

theorem tailSlotOf_eq_head (q k : Nat) (s : List Nat) :
    tailSlotOf q s = .head k ↔ s = [] ∧ q = k := by
  rcases nil_or_snoc s with rfl | ⟨l, x, rfl⟩
  · simp [tailSlotOf]
  · simp [tailSlotOf]

theorem swap_inv (m : Mem) (q1 q2 : Nat) (s1 s2 : List Nat) (hne : q1 ≠ q2)
    (h1 : QueueInv m q1 s1) (h2 : QueueInv m q2 s2) :
    QueueInv (genc_slq_swap m q1 q2) q1 s2 ∧ QueueInv (genc_slq_swap m q1 q2) q2 s1 := by
  obtain ⟨hn, ha, hb, _⟩ := swap_fields m q1 q2 hne
  obtain ⟨hc1, ht1⟩ := h1
  obtain ⟨hc2, ht2⟩ := h2
  refine ⟨⟨?_, ?_⟩, ⟨?_, ?_⟩⟩
  · rw [hn, ha]
    exact hc2
  · rw [ha]
    simp only [ht2, tailSlotOf_eq_head]
    rcases nil_or_snoc s2 with rfl | ⟨l, x, rfl⟩
    · simp [tailSlotOf]
    · simp [tailSlotOf]
  · rw [hn, hb]
    exact hc1
  · rw [hb]
    simp only [ht1, tailSlotOf_eq_head]
    rcases nil_or_snoc s1 with rfl | ⟨l, x, rfl⟩
    · simp [tailSlotOf]
    · simp [tailSlotOf]

theorem swap_other (m : Mem) (q1 q2 k : Nat) (t : List Nat) (hne : q1 ≠ q2)
    (hk1 : k ≠ q1) (hk2 : k ≠ q2) (hkt : QueueInv m k t) :
    QueueInv (genc_slq_swap m q1 q2) k t := by
  obtain ⟨hn, _, _, hr⟩ := swap_fields m q1 q2 hne
  unfold QueueInv
  rw [hn, hr k hk1 hk2]
  exact hkt

theorem init_inv (m : Mem) (q : Nat) : QueueInv (genc_slq_init m q) q [] := by
  simp [QueueInv, genc_slq_init, Mem.store, Mem.setTail, tailSlotOf]

theorem init_other (m : Mem) (q k : Nat) (t : List Nat) (hk : k ≠ q)
    (hkt : QueueInv m k t) : QueueInv (genc_slq_init m q) k t := by
  have h1 : (genc_slq_init m q).next = m.next := rfl
  have h2 : (genc_slq_init m q).queue k = m.queue k := by
    simp [genc_slq_init, Mem.store, Mem.setTail, hk]
  unfold QueueInv
  rw [h1, h2]
  exact hkt

theorem tailSlotInv_of_queueInv (m : Mem) (q : Nat) (s : List Nat) (hq : QueueInv m q s) :
    TailSlotInv m q := by
  obtain ⟨hc, ht⟩ := hq
  unfold TailSlotInv
  rcases nil_or_snoc s with rfl | ⟨l, x, rfl⟩
  · rw [lseg_nil] at hc
    rw [hc]
    simpa [tailSlotOf] using ht
  · cases hh : (m.queue q).head with
    | none =>
      rw [hh] at hc
      cases l <;> simp at hc
    | some a =>
      rw [hh] at hc
      rw [tailSlotOf_snoc] at ht
      exact ⟨l, x, hc, ht, ((lseg_snoc ..).mp hc).2⟩

theorem queueInv_of_tailSlotInv (m : Mem) (q : Nat) (hq : TailSlotInv m q) :
    ∃ s, QueueInv m q s := by
  unfold TailSlotInv at hq
  cases hh : (m.queue q).head with
  | none =>
    rw [hh] at hq
    exact ⟨[], by simp [QueueInv, hh, hq, tailSlotOf]⟩
  | some a =>
    rw [hh] at hq
    obtain ⟨l, x, hc, ht, _⟩ := hq
    exact ⟨l ++ [x], by rw [QueueInv, hh, tailSlotOf_snoc]; exact ⟨hc, ht⟩⟩

theorem unlinked_not_mem (qs : List Nat) (m : Mem) (n q : Nat) (s : List Nat)
    (hu : Unlinked qs m n) (hq : q ∈ qs) (hs : QueueInv m q s) : n ∉ s := by
  intro hn
  rcases lseg_mem_linked _ _ _ _ n hs.1 hn with h | ⟨x, h⟩
  · exact hu.1 q hq h
  · exact hu.2 x h

theorem is_empty_nil (m : Mem) (q : Nat) (hq : QueueInv m q []) :
    genc_slq_is_empty m q = 1 := by
  have hh : (m.queue q).head = none := by simpa using hq.1
  simp [genc_slq_is_empty, hh]

theorem is_empty_cons (m : Mem) (q a : Nat) (l : List Nat) (hq : QueueInv m q (a :: l)) :
    genc_slq_is_empty m q = 0 := by
  have hh : (m.queue q).head = some a := ((lseg_cons ..).mp hq.1).1
  simp [genc_slq_is_empty, hh]

theorem pop_front_n_inv (m : Mem) (q : Nat) (s1 s2 : List Nat)
    (hq : QueueInv m q (s1 ++ s2)) :
    (pop_front_n m q s1.length).2 = s1.map some ∧
      QueueInv (pop_front_n m q s1.length).1 q s2 := by
  induction s1 generalizing m with
  | nil => exact ⟨rfl, hq⟩
  | cons a l ih =>
    obtain ⟨hr, hi⟩ := pop_front_inv m q a (l ++ s2) hq
    obtain ⟨h1, h2⟩ := ih _ hi
    refine ⟨?_, h2⟩
    simp only [List.length_cons, pop_front_n, List.map_cons, hr, h1]

theorem push_back_all_inv (m : Mem) (q : Nat) (s ns : List Nat) (hq : QueueInv m q s)
    (hnd : (s ++ ns).Nodup) : QueueInv (push_back_all m q ns) q (s ++ ns) := by
  induction ns generalizing m s with
  | nil => simpa [push_back_all] using hq
  | cons n r ih =>
    have hn : n ∉ s := by
      intro hh
      have := List.nodup_append.mp hnd
      exact this.2.2 hh (List.mem_cons_self n r)
    have h1 := push_back_inv m q n s hq hn
    have h2 := ih _ (s ++ [n]) h1 (by simpa using hnd)
    simpa [push_back_all] using h2

theorem drain_eq (m : Mem) (q : Nat) (s : List Nat) (fuel : Nat) (hq : QueueInv m q s)
    (hf : s.length ≤ fuel) : drain m q fuel = some (pop_front_n m q s.length).1 := by
  induction s generalizing m fuel with
  | nil =>
    have he := is_empty_nil m q hq
    cases fuel <;> simp [drain, he, pop_front_n]
  | cons a l ih =>
    have he := is_empty_cons m q a l hq
    cases fuel with
    | zero => simp at hf
    | succ f =>
      have hi := (pop_front_inv m q a l hq).2
      have := ih _ f hi (by simpa using hf)
      simp [drain, he, pop_front_n, this]

theorem good_update (qs : List Nat) (m1 : Mem) (c : Nat → List Nat) (q : Nat)
    (s1 : List Nat) (hd0 : ∀ q1 ∈ qs, ∀ q2 ∈ qs, q1 ≠ q2 → ∀ x ∈ c q1, x ∉ c q2)
    (hq1 : QueueInv m1 q s1)
    (hother : ∀ k ∈ qs, k ≠ q → QueueInv m1 k (c k))
    (hdis : ∀ k ∈ qs, k ≠ q → ∀ x ∈ s1, x ∉ c k) :
    Good qs m1 (fun k => if k = q then s1 else c k) := by
  refine ⟨?_, ?_⟩
  · intro k hk
    by_cases hkq : k = q
    · subst hkq
      simpa using hq1
    · simpa [hkq] using hother k hk hkq
  · intro q1 h1 q2 h2 hne x hx
    by_cases ha : q1 = q
    · have hb : q2 ≠ q := fun hh => hne (ha.trans hh.symm)
      simp only [if_pos ha] at hx
      simp only [if_neg hb]
      exact hdis q2 h2 hb x hx
    · simp only [if_neg ha] at hx
      by_cases hb : q2 = q
      · simp only [if_pos hb]
        intro hxs
        exact hdis q1 h1 ha x hxs hx
      · simp only [if_neg hb]
        exact hd0 q1 h1 q2 h2 hne x hx

theorem reach_good (qs : List Nat) (m : Mem) (hr : Reach qs m) : ∃ c, Good qs m c := by
  induction hr with
  | start m => exact ⟨fun _ => [], by simp [Good]⟩
  | @init qs m q _ ih =>
    obtain ⟨c, hc, hd⟩ := ih
    refine ⟨fun k => if k = q then [] else c k, ?_, ?_⟩
    · intro k hk
      by_cases hkq : k = q
      · subst hkq
        simpa using init_inv m k
      · have hk2 : k ∈ qs := (List.mem_cons.mp hk).resolve_left hkq
        simpa [hkq] using init_other m q k (c k) hkq (hc k hk2)
    · intro q1 h1 q2 h2 hne x hx
      by_cases ha : q1 = q
      · simp [ha] at hx
      · simp only [if_neg ha] at hx
        by_cases hb : q2 = q
        · simp [hb]
        · simp only [if_neg hb]
          exact hd q1 ((List.mem_cons.mp h1).resolve_left ha) q2
            ((List.mem_cons.mp h2).resolve_left hb) hne x hx
  | @push_back qs m q n _ hq hu ih =>
    obtain ⟨c, hc, hd⟩ := ih
    have hn : ∀ k ∈ qs, n ∉ c k := fun k hk => unlinked_not_mem qs m n k _ hu hk (hc k hk)
    refine ⟨_, good_update qs _ c q (c q ++ [n]) hd
      (push_back_inv m q n _ (hc q hq) (hn q hq)) ?_ ?_⟩
    · intro k hk hkq
      exact push_back_other m q k n _ _ hkq (hc q hq) (hc k hk) (hn k hk)
        (hd q hq k hk (fun hh => hkq hh.symm))
    · intro k hk hkq x hx
      rcases List.mem_append.mp hx with hx | hx
      · exact hd q hq k hk (fun hh => hkq hh.symm) x hx
      · rw [List.mem_singleton.mp hx]
        exact hn k hk
  | @push_front qs m q n _ hq hu ih =>
    obtain ⟨c, hc, hd⟩ := ih
    have hn : ∀ k ∈ qs, n ∉ c k := fun k hk => unlinked_not_mem qs m n k _ hu hk (hc k hk)
    refine ⟨_, good_update qs _ c q (n :: c q) hd
      (push_front_inv m q n _ (hc q hq) (hn q hq)) ?_ ?_⟩
    · intro k hk hkq
      exact push_front_other m q k n _ _ hkq (hc q hq) (hc k hk) (hn k hk)
        (hd q hq k hk (fun hh => hkq hh.symm))
    · intro k hk hkq x hx
      rcases List.mem_cons.mp hx with hx | hx
      · rw [hx]
        exact hn k hk
      · exact hd q hq k hk (fun hh => hkq hh.symm) x hx
  | @pop_front qs m q _ hq ih =>
    obtain ⟨c, hc, hd⟩ := ih
    refine ⟨_, good_update qs _ c q (c q).tail hd ?_ ?_ ?_⟩
    · have h0 := hc q hq
      cases hcq : c q with
      | nil =>
        rw [hcq] at h0
        have hh : (m.queue q).head = none := by simpa using h0.1
        rw [pop_front_empty m q hh]
        simpa using h0
      | cons a l =>
        rw [hcq] at h0
        simpa using (pop_front_inv m q a l h0).2
    · intro k hk hkq
      exact pop_front_other m q k _ _ hkq (hc q hq) (hc k hk)
        (hd q hq k hk (fun hh => hkq hh.symm))
    · intro k hk hkq x hx
      exact hd q hq k hk (fun hh => hkq hh.symm) x (List.mem_of_mem_tail hx)
  | @swap qs m q1 q2 _ h1 h2 ih =>
    obtain ⟨c, hc, hd⟩ := ih
    by_cases hne : q1 = q2
    · refine ⟨c, ?_⟩
      simp only [genc_slq_swap, if_pos hne]
      exact ⟨hc, hd⟩
    · obtain ⟨ha, hb⟩ := swap_inv m q1 q2 _ _ hne (hc q1 h1) (hc q2 h2)
      have hne2 : q2 ≠ q1 := fun hh => hne hh.symm
      refine ⟨fun k => c (if k = q1 then q2 else if k = q2 then q1 else k), ?_, ?_⟩
      · intro k hk
        by_cases hk1 : k = q1
        · subst hk1
          simpa using ha
        · by_cases hk2 : k = q2
          · subst hk2
            simpa [hk1] using hb
          · simpa [hk1, hk2] using swap_other m q1 q2 k _ hne hk1 hk2 (hc k hk)
      · intro k1 hk1 k2 hk2 hkk x hx
        have hmem : ∀ k ∈ qs, (if k = q1 then q2 else if k = q2 then q1 else k) ∈ qs := by
          intro k hk
          split_ifs
          · exact h2
          · exact h1
          · exact hk
        refine hd _ (hmem k1 hk1) _ (hmem k2 hk2) ?_ x hx
        intro hjj
        split_ifs at hjj <;> omega

theorem unlinked_first : Unlinked [1, 0] (genc_slq_init (genc_slq_init mem0 0) 1) 10 := by
  refine ⟨by decide, ?_⟩
  intro x
  simp [genc_slq_init, Mem.store, Mem.setTail, mem0]

theorem unlinked_second :
    Unlinked [1, 0] (genc_slq_push_back (genc_slq_init (genc_slq_init mem0 0) 1) 0 10) 20 := by
  refine ⟨by decide, ?_⟩
  intro x
  simp [genc_slq_push_back, genc_slist_insert_at, genc_slq_init, Mem.store, Mem.setTail,
    Mem.load, mem0]

theorem reach_memRun : Reach [1, 0] memRun :=
  Reach.swap 0 1
    (Reach.pop_front 0
      (Reach.push_front 0 20
        (Reach.push_back 0 10 (Reach.init 1 (Reach.init 0 (Reach.start mem0)))
          (by decide) unlinked_first)
        (by decide) unlinked_second)
      (by decide))
    (by decide) (by decide)

/-! ## Queue: the properties of the specification -/

/-- C1 (queue FIFO law): for every list `ns` of distinct nodes, starting from a queue set up by
`genc_slq_init` in any memory, pushing `ns` to the back in order and then popping
`ns.length` times returns exactly the nodes of `ns` in order; afterwards `genc_slq_is_empty`
is non-zero and one more `genc_slq_pop_front` returns NULL. -/
theorem genc_slq_fifo_law (m : Mem) (q : Nat) (ns : List Nat) (hd : ns.Nodup) :
    (pop_front_n (push_back_all (genc_slq_init m q) q ns) q ns.length).2 = ns.map some ∧
    genc_slq_is_empty (pop_front_n (push_back_all (genc_slq_init m q) q ns) q ns.length).1 q
      ≠ 0 ∧
    (genc_slq_pop_front
      (pop_front_n (push_back_all (genc_slq_init m q) q ns) q ns.length).1 q).2 = none := by
  have h1 := push_back_all_inv (genc_slq_init m q) q [] ns (init_inv m q) (by simpa using hd)
  rw [List.nil_append] at h1
  have h2 := pop_front_n_inv _ q ns [] (by simpa using h1)
  obtain ⟨hres, hinv⟩ := h2
  have hh : ((pop_front_n (push_back_all (genc_slq_init m q) q ns) q ns.length).1.queue q).head
      = none := by simpa using hinv.1
  refine ⟨hres, ?_, ?_⟩
  · rw [is_empty_nil _ q hinv]
    decide
  · rw [pop_front_empty _ q hh]

/-- Witness for C1: pushing 10, 20, 30 and popping three times yields 10, 20, 30. -/
theorem genc_slq_fifo_law_witness :
    [10, 20, 30].Nodup ∧
    ((pop_front_n (push_back_all (genc_slq_init mem0 0) 0 [10, 20, 30]) 0 3).2
        = [some 10, some 20, some 30] ∧
      genc_slq_is_empty
        (pop_front_n (push_back_all (genc_slq_init mem0 0) 0 [10, 20, 30]) 0 3).1 0 ≠ 0 ∧
      (genc_slq_pop_front
        (pop_front_n (push_back_all (genc_slq_init mem0 0) 0 [10, 20, 30]) 0 3).1 0).2 = none) :=
  ⟨by decide, genc_slq_fifo_law mem0 0 [10, 20, 30] (by decide)⟩

/-- C2 (tail-slot invariant): in every memory reachable by `genc_slq_init`,
`genc_slq_push_back` / `genc_slq_push_front` of nodes that no slot holds, `genc_slq_pop_front`
and `genc_slq_swap` between initialised queues, every initialised queue satisfies the tail-slot
invariant: with `head` none the tail slot is the queue's own head slot, otherwise the chain
from `head` is finite, the tail slot is the `next` field of its last node and that field holds
none. -/
theorem genc_slq_tail_slot_invariant (qs : List Nat) (m : Mem) (hr : Reach qs m)
    (q : Nat) (hq : q ∈ qs) : TailSlotInv m q := by
  obtain ⟨c, hc, _⟩ := reach_good qs m hr
  exact tailSlotInv_of_queueInv m q (c q) (hc q hq)

/-- Witness for C2: after `init 0`, `init 1`, `push_back(0, 10)`, `push_front(0, 20)`,
`pop_front(0)` and `swap(0, 1)` the queue at address 1 satisfies the invariant. -/
theorem genc_slq_tail_slot_invariant_witness :
    Reach [1, 0] memRun ∧ 1 ∈ [1, 0] ∧ TailSlotInv memRun 1 :=
  ⟨reach_memRun, by decide,
    genc_slq_tail_slot_invariant [1, 0] memRun reach_memRun 1 (by decide)⟩

/-- C3 (swap exchanges contents): for two distinct queues satisfying the tail-slot invariant
with contents `s1` and `s2`, after `genc_slq_swap` the first holds `s2` and the second holds
`s1`, each with the tail slot that belongs to it as new owner, and no node is written. When the
first was empty and the second was not, afterwards the first is non-empty, the second is empty
and the second's tail slot is its own head slot, not the first's. -/
theorem genc_slq_swap_exchanges (m : Mem) (q1 q2 : Nat) (s1 s2 : List Nat) (hne : q1 ≠ q2)
    (h1 : QueueInv m q1 s1) (h2 : QueueInv m q2 s2) :
    QueueInv (genc_slq_swap m q1 q2) q1 s2 ∧
    QueueInv (genc_slq_swap m q1 q2) q2 s1 ∧
    (genc_slq_swap m q1 q2).next = m.next ∧
    (s1 = [] → s2 ≠ [] →
      genc_slq_is_empty (genc_slq_swap m q1 q2) q1 = 0 ∧
      genc_slq_is_empty (genc_slq_swap m q1 q2) q2 ≠ 0 ∧
      ((genc_slq_swap m q1 q2).queue q2).tail = .head q2 ∧
      ((genc_slq_swap m q1 q2).queue q2).tail ≠ .head q1) := by
  obtain ⟨ha, hb⟩ := swap_inv m q1 q2 s1 s2 hne h1 h2
  refine ⟨ha, hb, (swap_fields m q1 q2 hne).1, ?_⟩
  intro e1 e2
  subst e1
  have ht : ((genc_slq_swap m q1 q2).queue q2).tail = .head q2 := by
    simpa [tailSlotOf] using hb.2
  refine ⟨?_, ?_, ht, ?_⟩
  · cases s2 with
    | nil => exact absurd rfl e2
    | cons a l => exact is_empty_cons _ q1 a l ha
  · rw [is_empty_nil _ q2 hb]
    decide
  · rw [ht]
    intro hh
    exact hne (Slot.head.inj hh).symm

/-- Witness for C3: swapping the empty queue at 0 with the queue at 1 holding 10, 20. -/
theorem genc_slq_swap_exchanges_witness :
    QueueInv memPair 0 [] ∧ QueueInv memPair 1 [10, 20] ∧
    QueueInv (genc_slq_swap memPair 0 1) 0 [10, 20] ∧
    QueueInv (genc_slq_swap memPair 0 1) 1 [] ∧
    ((genc_slq_swap memPair 0 1).queue 1).tail = .head 1 :=
  have h := genc_slq_swap_exchanges memPair 0 1 [] [10, 20] (by decide) (by decide) (by decide)
  ⟨by decide, by decide, h.1, h.2.1, (h.2.2.2 rfl (by decide)).2.2.1⟩

/-- C4 (mixed ordering): on a queue satisfying the tail-slot invariant with contents `s`, and
a node `n` not in the queue, `genc_slq_push_front` makes the contents `n :: s` and
`genc_slq_push_back` makes them `s ++ [n]`; in both cases popping `s.length + 1` times returns
exactly those nodes in that order. -/
theorem genc_slq_mixed_ordering (m : Mem) (q n : Nat) (s : List Nat)
    (hq : QueueInv m q s) (hn : n ∉ s) :
    QueueInv (genc_slq_push_front m q n) q (n :: s) ∧
    (pop_front_n (genc_slq_push_front m q n) q (s.length + 1)).2 = (n :: s).map some ∧
    QueueInv (genc_slq_push_back m q n) q (s ++ [n]) ∧
    (pop_front_n (genc_slq_push_back m q n) q (s.length + 1)).2 = (s ++ [n]).map some := by
  have hf := push_front_inv m q n s hq hn
  have hb := push_back_inv m q n s hq hn
  refine ⟨hf, ?_, hb, ?_⟩
  · have := (pop_front_n_inv _ q (n :: s) [] (by simpa using hf)).1
    simpa using this
  · have := (pop_front_n_inv _ q (s ++ [n]) [] (by simpa using hb)).1
    simpa using this

/-- Witness for C4: on an initialised queue, `push_back(10)`, `push_front(20)`,
`push_back(30)` followed by three pops yields 20, 10, 30. -/
theorem genc_slq_mixed_ordering_witness :
    QueueInv (genc_slq_push_back (genc_slq_init mem0 0) 0 10) 0 [10] ∧ 20 ∉ [10] ∧
    (pop_front_n
      (genc_slq_push_front (genc_slq_push_back (genc_slq_init mem0 0) 0 10) 0 20) 0 2).2
      = [some 20, some 10] ∧
    (pop_front_n
      (genc_slq_push_back
        (genc_slq_push_front (genc_slq_push_back (genc_slq_init mem0 0) 0 10) 0 20) 0 30)
      0 3).2 = [some 20, some 10, some 30] :=
  have h := genc_slq_mixed_ordering (genc_slq_push_back (genc_slq_init mem0 0) 0 10) 0 20 [10]
    (by decide) (by decide)
  ⟨by decide, by decide, h.2.1,
    (genc_slq_mixed_ordering _ 0 30 [20, 10] h.1 (by decide)).2.2.2⟩

/-- C5 (tail reset on emptying): for a non-empty queue satisfying the tail-slot invariant,
the loop that pops until the head is none terminates within as many iterations as the queue has
nodes; afterwards the head is none and the tail slot is the queue's own head slot (so it is no
node's `next` field), and for every node `n` a `genc_slq_push_back` followed by
`genc_slq_pop_front` returns `n` and leaves `genc_slq_is_empty` non-zero. -/
theorem genc_slq_tail_reset (m : Mem) (q a : Nat) (l : List Nat) (fuel n : Nat)
    (hq : QueueInv m q (a :: l)) (hf : l.length + 1 ≤ fuel) :
    ∃ m1, drain m q fuel = some m1 ∧
      (m1.queue q).head = none ∧
      (m1.queue q).tail = .head q ∧
      (∀ x, (m1.queue q).tail ≠ .next x) ∧
      (genc_slq_pop_front (genc_slq_push_back m1 q n) q).2 = some n ∧
      genc_slq_is_empty (genc_slq_pop_front (genc_slq_push_back m1 q n) q).1 q ≠ 0 := by
  have hdr := drain_eq m q (a :: l) fuel hq (by simpa using hf)
  have hinv := (pop_front_n_inv m q (a :: l) [] (by simpa using hq)).2
  refine ⟨_, hdr, ?_, ?_, ?_, ?_, ?_⟩
  · simpa using hinv.1
  · simpa [tailSlotOf] using hinv.2
  · intro x
    have : ((pop_front_n m q (a :: l).length).1.queue q).tail = .head q := by
      simpa [tailSlotOf] using hinv.2
    rw [this]
    exact fun hh => Slot.noConfusion hh
  · have hp := push_back_inv _ q n [] hinv (by simp)
    exact (pop_front_inv _ q n [] hp).1
  · have hp := push_back_inv _ q n [] hinv (by simp)
    have he := (pop_front_inv _ q n [] hp).2
    rw [is_empty_nil _ q he]
    decide

/-- Witness for C5: the queue holding 10, 20 is drained in two iterations, and a pushed 30
comes straight back. -/
theorem genc_slq_tail_reset_witness :
    QueueInv memTwo 0 [10, 20] ∧
    ∃ m1, drain memTwo 0 2 = some m1 ∧
      (m1.queue 0).head = none ∧
      (m1.queue 0).tail = .head 0 ∧
      (∀ x, (m1.queue 0).tail ≠ .next x) ∧
      (genc_slq_pop_front (genc_slq_push_back m1 0 30) 0).2 = some 30 ∧
      genc_slq_is_empty (genc_slq_pop_front (genc_slq_push_back m1 0 30) 0).1 0 ≠ 0 :=
  ⟨by decide, genc_slq_tail_reset memTwo 0 10 [20] 2 30 (by decide) (by decide)⟩

/-- C6 (pop on an empty queue): when the head is none, `genc_slq_pop_front` returns NULL and
the memory (the queue's head and tail slot, every other queue, every node) is unchanged. -/
theorem genc_slq_pop_front_on_empty (m : Mem) (q : Nat) (hh : (m.queue q).head = none) :
    genc_slq_pop_front m q = (m, none) := by
  simp [genc_slq_pop_front, genc_slist_remove_at, Mem.load, hh]

/-- Witness for C6: popping the empty queue at address 0 of `mem0`. -/
theorem genc_slq_pop_front_on_empty_witness :
    (mem0.queue 0).head = none ∧ genc_slq_pop_front mem0 0 = (mem0, none) :=
  ⟨rfl, genc_slq_pop_front_on_empty mem0 0 rfl⟩

/-- C7 (push_front on an empty queue is push_back): for a queue with head none satisfying the
tail-slot invariant, the memory after `genc_slq_push_front` equals the memory after
`genc_slq_push_back` from the same state; in it the head is the pushed node, the tail slot is
the node's `next` field and that field holds none. -/
theorem genc_slq_push_front_on_empty (m : Mem) (q n : Nat)
    (hh : (m.queue q).head = none) (hinv : TailSlotInv m q) :
    genc_slq_push_front m q n = genc_slq_push_back m q n ∧
    ((genc_slq_push_front m q n).queue q).head = some n ∧
    ((genc_slq_push_front m q n).queue q).tail = .next n ∧
    (genc_slq_push_front m q n).next n = none := by
  have ht : (m.queue q).tail = .head q := by
    unfold TailSlotInv at hinv
    rw [hh] at hinv
    exact hinv
  have he : genc_slq_push_front m q n = genc_slq_push_back m q n := by
    simp [genc_slq_push_front, hh]
  obtain ⟨h1, h2⟩ := push_back_next_nil m q n ht hh
  rw [he, h1, h2]
  simp

/-- Witness for C7: pushing node 10 to the front of the empty queue at address 0. -/
theorem genc_slq_push_front_on_empty_witness :
    (mem0.queue 0).head = none ∧ TailSlotInv mem0 0 ∧
    (genc_slq_push_front mem0 0 10 = genc_slq_push_back mem0 0 10 ∧
      ((genc_slq_push_front mem0 0 10).queue 0).head = some 10 ∧
      ((genc_slq_push_front mem0 0 10).queue 0).tail = .next 10 ∧
      (genc_slq_push_front mem0 0 10).next 10 = none) :=
  ⟨rfl, by simp [TailSlotInv, mem0],
    genc_slq_push_front_on_empty mem0 0 10 rfl (by simp [TailSlotInv, mem0])⟩

/-- C8 (self-swap): `genc_slq_swap` of a queue with itself leaves the whole memory unchanged. -/
theorem genc_slq_swap_self (m : Mem) (q : Nat) : genc_slq_swap m q q = m := by
  simp [genc_slq_swap]

/-! ## Doubly-linked segments -/

@[simp] theorem dseg_nil (m : DMem) (a b : Nat) :
    dseg m a [] b ↔ m.next a = b ∧ m.prev b = a := Iff.rfl

@[simp] theorem dseg_cons (m : DMem) (a b x : Nat) (l : List Nat) :
    dseg m a (x :: l) b ↔ m.next a = x ∧ m.prev x = a ∧ dseg m x l b := Iff.rfl

theorem dseg_append (m : DMem) (l1 l2 : List Nat) (a x b : Nat) :
    dseg m a (l1 ++ x :: l2) b ↔ dseg m a l1 x ∧ dseg m x l2 b := by
  induction l1 generalizing a with
  | nil => simp [and_assoc]
  | cons y l ih => simp [ih, and_assoc]

theorem dseg_snoc (m : DMem) (l : List Nat) (a x b : Nat) :
    dseg m a (l ++ [x]) b ↔ dseg m a l x ∧ m.next x = b ∧ m.prev b = x := by
  rw [dseg_append, dseg_nil]

theorem dseg_congr (m1 m2 : DMem) (l : List Nat) (a b : Nat)
    (hn : ∀ x ∈ a :: l, m1.next x = m2.next x)
    (hp : ∀ x ∈ l ++ [b], m1.prev x = m2.prev x) :
    dseg m1 a l b ↔ dseg m2 a l b := by
  induction l generalizing a with
  | nil =>
    simp only [dseg_nil]
    rw [hn a (by simp), hp b (by simp)]
  | cons y l ih =>
    simp only [dseg_cons]
    rw [hn a (by simp), hp y (by simp),
      ih y (fun x hx => hn x (List.mem_cons_of_mem a hx))
        (fun x hx => hp x (by simp only [List.cons_append, List.mem_cons]; exact Or.inr hx))]

theorem dseg_flip (m : DMem) (l : List Nat) (a b : Nat) :
    dseg m.flip a l b ↔ dseg m b l.reverse a := by
  induction l generalizing a with
  | nil =>
    simp only [dseg_nil, List.reverse_nil, DMem.flip]
    exact and_comm
  | cons x l ih =>
    rw [dseg_cons, ih, List.reverse_cons, dseg_snoc]
    simp only [DMem.flip]
    constructor
    · rintro ⟨h1, h2, h3⟩
      exact ⟨h3, h2, h1⟩
    · rintro ⟨h1, h2, h3⟩
      exact ⟨h3, h2, h1⟩

theorem dseg_next_head (m : DMem) (l : List Nat) (a b : Nat) (hs : dseg m a l b) :
    m.next a = (l ++ [b]).head (by simp) := by
  cases l with
  | nil => simpa using hs.1
  | cons x l => simpa using hs.1

theorem dseg_next_mem (m : DMem) (l : List Nat) (a b : Nat) (hs : dseg m a l b) :
    m.next a ∈ l ++ [b] := by
  rw [dseg_next_head m l a b hs]
  exact List.head_mem _

theorem ring_flip (m : DMem) (h : Nat) (l : List Nat) :
    Ring m.flip h l ↔ Ring m h l.reverse := by
  unfold Ring
  rw [dseg_flip]
  simp [List.nodup_cons]

theorem DMem.flip_flip (m : DMem) : m.flip.flip = m := rfl

theorem insert_before_flip (m : DMem) (a b : Nat) :
    genc_dlist_insert_before m a b = (genc_dlist_insert_after m.flip a b).flip := rfl

theorem insert_after_next (m : DMem) (new_entry after : Nat) :
    (genc_dlist_insert_after m new_entry after).next =
      fun k => if k = after then new_entry else if k = new_entry then m.next after
        else m.next k := rfl

theorem insert_after_prev (m : DMem) (new_entry after : Nat) :
    (genc_dlist_insert_after m new_entry after).prev =
      fun k => if k = m.next after then new_entry else if k = new_entry then after
        else m.prev k := rfl

theorem remove_next (m : DMem) (entry : Nat) :
    (genc_dlist_remove m entry).1.next =
      fun k => if k = m.prev entry then m.next entry else m.next k := rfl

theorem remove_prev (m : DMem) (entry : Nat) :
    (genc_dlist_remove m entry).1.prev =
      fun k => if k = m.next entry then m.prev entry else m.prev k := rfl

theorem dseg_prev_mem (m : DMem) (l : List Nat) (a b : Nat) (hs : dseg m a l b) :
    m.prev b ∈ a :: l := by
  induction l generalizing a with
  | nil => simp [hs.2]
  | cons x l ih =>
    have := ih x hs.2.2
    exact List.mem_cons_of_mem a this

theorem dseg_next_closed (m : DMem) (l : List Nat) (a b : Nat) (hs : dseg m a l b) :
    ∀ y ∈ a :: l, m.next y ∈ l ++ [b] := by
  induction l generalizing a with
  | nil =>
    intro y hy
    simp only [List.mem_singleton] at hy
    simp [hy, hs.1]
  | cons x l ih =>
    intro y hy
    rcases List.mem_cons.mp hy with rfl | hy
    · simp [hs.1]
    · exact List.mem_cons_of_mem x (ih x hs.2.2 y hy)

theorem dseg_links (m : DMem) (l : List Nat) (a b : Nat) (hs : dseg m a l b) :
    (∀ y ∈ a :: l, m.prev (m.next y) = y) ∧ (∀ y ∈ l ++ [b], m.next (m.prev y) = y) := by
  induction l generalizing a with
  | nil =>
    obtain ⟨h1, h2⟩ := hs
    constructor
    · intro y hy
      simp only [List.mem_singleton] at hy
      rw [hy, h1, h2]
    · intro y hy
      simp only [List.nil_append, List.mem_singleton] at hy
      rw [hy, h2, h1]
  | cons x l ih =>
    obtain ⟨h1, h2, h3⟩ := hs
    obtain ⟨i1, i2⟩ := ih x h3
    constructor
    · intro y hy
      rcases List.mem_cons.mp hy with rfl | hy
      · rw [h1, h2]
      · exact i1 y hy
    · intro y hy
      rcases List.mem_cons.mp hy with rfl | hy
      · rw [h2, h1]
      · exact i2 y hy

theorem dseg_reach (m : DMem) (l : List Nat) (a b : Nat) (hs : dseg m a l b) :
    ∀ y ∈ l, ∃ k, Nat.iterate m.next k a = y := by
  induction l generalizing a with
  | nil => simp
  | cons x l ih =>
    intro y hy
    rcases List.mem_cons.mp hy with rfl | hy
    · exact ⟨1, hs.1⟩
    · obtain ⟨k, hk⟩ := ih x hs.2.2 y hy
      refine ⟨k + 1, ?_⟩
      rw [Function.iterate_succ_apply, hs.1]
      exact hk

theorem inRing_iff (m : DMem) (h : Nat) (l : List Nat) (hr : Ring m h l) (x : Nat) :
    InRing m h x ↔ x ∈ h :: l := by
  constructor
  · rintro ⟨k, rfl⟩
    induction k with
    | zero => simp
    | succ k ih =>
      rw [Function.iterate_succ_apply']
      have := dseg_next_closed m l h h hr.1 _ ih
      simpa [or_comm] using this
  · intro hx
    rcases List.mem_cons.mp hx with rfl | hx
    · exact ⟨0, rfl⟩
    · exact dseg_reach m l h h hr.1 x hx

theorem init_ring (m : DMem) (h : Nat) : Ring (genc_dlist_init m h) h [] := by
  simp [Ring, genc_dlist_init, DMem.setNext, DMem.setPrev]

theorem insert_after_seg (m : DMem) (a b new_entry : Nat) (l : List Nat)
    (hs : dseg m a l b) (hna : new_entry ≠ a) (hnb : new_entry ≠ b) (hnl : new_entry ∉ l)
    (hal : a ∉ l) (hnd : (l ++ [b]).Nodup) :
    dseg (genc_dlist_insert_after m new_entry a) a (new_entry :: l) b := by
  have hnn : new_entry ≠ m.next a := by
    intro hh
    have := dseg_next_mem m l a b hs
    rw [← hh] at this
    rcases List.mem_append.mp this with h1 | h1
    · exact hnl h1
    · exact hnb (List.mem_singleton.mp h1)
  rw [dseg_cons]
  refine ⟨by simp [insert_after_next], by simp [insert_after_prev, hnn], ?_⟩
  cases l with
  | nil =>
    obtain ⟨h1, h2⟩ := hs
    simp [insert_after_next, insert_after_prev, hna, h1]
  | cons x l2 =>
    obtain ⟨h1, h2, h3⟩ := hs
    rw [dseg_cons]
    refine ⟨by simp [insert_after_next, hna, h1], by simp [insert_after_prev, h1], ?_⟩
    refine (dseg_congr _ m l2 x b ?_ ?_).mpr h3
    · intro k hk
      have hka : k ≠ a := fun hh => hal (hh ▸ hk)
      have hkn : k ≠ new_entry := fun hh => hnl (hh ▸ hk)
      simp [insert_after_next, hka, hkn]
    · intro k hk
      have hkx : k ≠ x := by
        intro hh
        rw [hh] at hk
        exact (List.nodup_cons.mp (by simpa using hnd)).1 hk
      have hkn : k ≠ new_entry := by
        intro hh
        rw [hh] at hk
        rcases List.mem_append.mp hk with h5 | h5
        · exact hnl (List.mem_cons_of_mem x h5)
        · exact hnb (List.mem_singleton.mp h5)
      simp [insert_after_prev, h1, hkx, hkn]

theorem insert_after_frame (m : DMem) (a new_entry c d : Nat) (l : List Nat)
    (hs : dseg m c l d) (h1 : new_entry ∉ c :: l) (h2 : a ∉ c :: l)
    (h3 : new_entry ∉ l ++ [d]) (h4 : m.next a ∉ l ++ [d]) :
    dseg (genc_dlist_insert_after m new_entry a) c l d := by
  refine (dseg_congr _ m l c d ?_ ?_).mpr hs
  · intro k hk
    have hka : k ≠ a := fun hh => h2 (hh ▸ hk)
    have hkn : k ≠ new_entry := fun hh => h1 (hh ▸ hk)
    simp [insert_after_next, hka, hkn]
  · intro k hk
    have hka : k ≠ m.next a := fun hh => h4 (hh ▸ hk)
    have hkn : k ≠ new_entry := fun hh => h3 (hh ▸ hk)
    simp [insert_after_prev, hka, hkn]

theorem nodup_split (h pos : Nat) (l4 l2 : List Nat)
    (hnd : (h :: (l4 ++ pos :: l2)).Nodup) :
    h ∉ l4 ∧ h ≠ pos ∧ h ∉ l2 ∧ l4.Nodup ∧ pos ∉ l4 ∧ pos ∉ l2 ∧ l2.Nodup ∧
      ∀ x ∈ l4, x ∉ l2 := by
  have h1 := List.nodup_cons.mp hnd
  have h2 := List.nodup_append.mp h1.2
  have h3 := List.nodup_cons.mp h2.2.1
  have hm := h1.1
  simp only [List.mem_append, List.mem_cons, not_or] at hm
  refine ⟨hm.1, hm.2.1, hm.2.2, h2.1, ?_, h3.1, h3.2, ?_⟩
  · exact fun hh => h2.2.2 hh (List.mem_cons_self pos l2)
  · exact fun x hx hx2 => h2.2.2 hx (List.mem_cons_of_mem pos hx2)

theorem nodup_snoc_of_cons (h : Nat) (l : List Nat) (hnd : (h :: l).Nodup) :
    (l ++ [h]).Nodup := by
  have h1 := List.nodup_cons.mp hnd
  rw [List.nodup_append]
  refine ⟨h1.2, by simp, ?_⟩
  intro x hx hx2
  rw [List.mem_singleton.mp hx2] at hx
  exact h1.1 hx

theorem insert_after_ring (m : DMem) (h new_entry pos : Nat) (l l1 l2 : List Nat)
    (hr : Ring m h l) (hn : new_entry ∉ h :: l) (hsplit : h :: l = l1 ++ pos :: l2) :
    ∃ l3, h :: l3 = l1 ++ pos :: new_entry :: l2 ∧
      Ring (genc_dlist_insert_after m new_entry pos) h l3 := by
  obtain ⟨hs, hnd⟩ := hr
  have hndL : (l1 ++ pos :: new_entry :: l2).Nodup := by
    have h0 : (new_entry :: (h :: l)).Nodup := List.nodup_cons.mpr ⟨hn, hnd⟩
    rw [hsplit] at h0
    have e : l1 ++ pos :: new_entry :: l2 = (l1 ++ [pos]) ++ new_entry :: l2 := by simp
    rw [e, List.nodup_middle]
    simpa using h0
  cases l1 with
  | nil =>
    simp only [List.nil_append, List.cons.injEq] at hsplit
    obtain ⟨rfl, rfl⟩ := hsplit
    refine ⟨new_entry :: l, rfl, ?_, hndL⟩
    have h1 := List.nodup_cons.mp hnd
    refine insert_after_seg m h h new_entry l hs ?_ ?_ ?_ h1.1 (nodup_snoc_of_cons h l hnd)
    · exact fun hh => hn (by simp [hh])
    · exact fun hh => hn (by simp [hh])
    · exact fun hh => hn (List.mem_cons_of_mem h hh)
  | cons y l4 =>
    simp only [List.cons_append, List.cons.injEq] at hsplit
    obtain ⟨rfl, rfl⟩ := hsplit
    rw [dseg_append] at hs
    obtain ⟨hs1, hs2⟩ := hs
    obtain ⟨hh4, hhp, hh2, n4, hp4, hp2, n2, d42⟩ := nodup_split h pos l4 l2 hnd
    simp only [List.mem_cons, List.mem_append, not_or] at hn
    obtain ⟨hnh, hn4, hnp, hn2⟩ := hn
    refine ⟨l4 ++ pos :: new_entry :: l2, rfl, ?_, hndL⟩
    rw [dseg_append]
    refine ⟨?_, ?_⟩
    · refine insert_after_frame m pos new_entry h pos l4 hs1 ?_ ?_ ?_ ?_
      · simp only [List.mem_cons, not_or]
        exact ⟨hnh, hn4⟩
      · simp only [List.mem_cons, not_or]
        exact ⟨fun hh => hhp hh.symm, hp4⟩
      · simp only [List.mem_append, List.mem_singleton, not_or]
        exact ⟨hn4, hnp⟩
      · intro hh
        have hm := dseg_next_mem m l2 pos h hs2
        simp only [List.mem_append, List.mem_singleton] at hh hm
        rcases hm with hm | hm
        · rcases hh with hh | hh
          · exact d42 _ hh hm
          · rw [hh] at hm
            exact hp2 hm
        · rw [hm] at hh
          rcases hh with hh | hh
          · exact hh4 hh
          · exact hhp hh
    · exact insert_after_seg m pos h new_entry l2 hs2 hnp hnh hn2 hp2
        (nodup_snoc_of_cons h l2 (List.nodup_cons.mpr ⟨hh2, n2⟩))

theorem insert_before_ring (m : DMem) (h new_entry pos : Nat) (l l1 l2 : List Nat)
    (hr : Ring m h l) (hn : new_entry ∉ h :: l) (hsplit : l ++ [h] = l1 ++ pos :: l2) :
    ∃ l3, l3 ++ [h] = l1 ++ new_entry :: pos :: l2 ∧
      Ring (genc_dlist_insert_before m new_entry pos) h l3 := by
  have hrf : Ring m.flip h l.reverse := by
    rw [ring_flip, List.reverse_reverse]
    exact hr
  have hsp : h :: l.reverse = l2.reverse ++ pos :: l1.reverse := by
    have := congrArg List.reverse hsplit
    simpa using this
  have hnf : new_entry ∉ h :: l.reverse := by simpa using hn
  obtain ⟨l3, h3, hr3⟩ := insert_after_ring m.flip h new_entry pos l.reverse l2.reverse
    l1.reverse hrf hnf hsp
  refine ⟨l3.reverse, ?_, ?_⟩
  · have := congrArg List.reverse h3
    simpa using this
  · rw [insert_before_flip, ring_flip, List.reverse_reverse]
    exact hr3

theorem remove_seg (m : DMem) (a b e : Nat) (l1 l2 : List Nat)
    (h1 : dseg m a l1 e) (h2 : dseg m e l2 b) (hnd : (a :: (l1 ++ e :: l2)).Nodup)
    (hb : b ∉ l1 ++ e :: l2) :
    dseg (genc_dlist_remove m e).1 a (l1 ++ l2) b := by
  induction l1 generalizing a with
  | nil =>
    obtain ⟨hae, hea⟩ := h1
    obtain ⟨_, hea2, _, _, _, he2, n2, _⟩ := nodup_split a e [] l2 hnd
    simp only [List.nil_append, List.mem_cons, not_or] at hb
    cases l2 with
    | nil =>
      obtain ⟨h3, h4⟩ := h2
      simp [remove_next, remove_prev, hea, h3]
    | cons x l3 =>
      obtain ⟨h3, h4, h5⟩ := h2
      simp only [List.nil_append, dseg_cons]
      refine ⟨by simp [remove_next, hea, h3], by simp [remove_prev, hea, h3], ?_⟩
      refine (dseg_congr _ m l3 x b ?_ ?_).mpr h5
      · intro k hk
        have hka : k ≠ a := by
          intro hh
          rw [hh] at hk
          have := (List.nodup_cons.mp hnd).1
          exact this (by simp only [List.nil_append]; exact List.mem_cons_of_mem e hk)
        simp [remove_next, hea, hka]
      · intro k hk
        have hkx : k ≠ x := by
          intro hh
          rw [hh] at hk
          rcases List.mem_append.mp hk with h6 | h6
          · exact (List.nodup_cons.mp n2).1 h6
          · exact hb.2 (by simp [List.mem_singleton.mp h6])
        simp [remove_prev, h3, hkx]
  | cons y l4 ih =>
    obtain ⟨hay, hya, h3⟩ := h1
    have hnd1 := List.nodup_cons.mp hnd
    have hpm := dseg_prev_mem m l4 y e h3
    have hnm := dseg_next_mem m l2 e b h2
    have hap : a ≠ m.prev e := by
      intro hh
      rw [← hh] at hpm
      apply hnd1.1
      rcases List.mem_cons.mp hpm with h6 | h6
      · simp [h6]
      · simp [h6]
    have hyn : y ≠ m.next e := by
      intro hh
      rw [← hh] at hnm
      have hnd2 := List.nodup_cons.mp hnd1.2
      rcases List.mem_append.mp hnm with h6 | h6
      · exact hnd2.1 (by simp [h6])
      · rw [List.mem_singleton.mp h6] at hb
        exact hb (by simp)
    simp only [List.cons_append, dseg_cons]
    refine ⟨by simp [remove_next, hap, hay], by simp [remove_prev, hyn, hya], ?_⟩
    refine ih y h3 hnd1.2 ?_
    intro hh
    exact hb (List.mem_cons_of_mem y hh)

theorem remove_ring (m : DMem) (h e : Nat) (l1 l2 : List Nat)
    (hr : Ring m h (l1 ++ e :: l2)) : Ring (genc_dlist_remove m e).1 h (l1 ++ l2) := by
  obtain ⟨hs, hnd⟩ := hr
  rw [dseg_append] at hs
  refine ⟨remove_seg m h h e l1 l2 hs.1 hs.2 hnd (List.nodup_cons.mp hnd).1, ?_⟩
  have h0 : (h :: l1 ++ e :: l2).Nodup := hnd
  rw [List.nodup_middle] at h0
  exact (List.nodup_cons.mp h0).2

theorem dreach_ring (h : Nat) (m : DMem) (hr : DReach h m) : ∃ l, Ring m h l := by
  induction hr with
  | init m => exact ⟨[], init_ring m h⟩
  | @insert_before m new_entry pos _ hn hp ih =>
    obtain ⟨l, hl⟩ := ih
    rw [inRing_iff m h l hl] at hn hp
    have hp2 : pos ∈ l ++ [h] := by
      simp only [List.mem_cons] at hp
      simp only [List.mem_append, List.mem_singleton]
      exact hp.symm
    obtain ⟨l1, l2, hsplit⟩ := List.append_of_mem hp2
    obtain ⟨l3, _, h3⟩ := insert_before_ring m h new_entry pos l l1 l2 hl hn hsplit
    exact ⟨l3, h3⟩
  | @insert_after m new_entry pos _ hn hp ih =>
    obtain ⟨l, hl⟩ := ih
    rw [inRing_iff m h l hl] at hn hp
    obtain ⟨l1, l2, hsplit⟩ := List.append_of_mem hp
    obtain ⟨l3, _, h3⟩ := insert_after_ring m h new_entry pos l l1 l2 hl hn hsplit
    exact ⟨l3, h3⟩
  | @remove m entry _ he hne ih =>
    obtain ⟨l, hl⟩ := ih
    rw [inRing_iff m h l hl] at he
    have he2 : entry ∈ l := (List.mem_cons.mp he).resolve_left hne
    obtain ⟨l1, l2, rfl⟩ := List.append_of_mem he2
    exact ⟨l1 ++ l2, remove_ring m h entry l1 l2 hl⟩

theorem ring_rotate (m : DMem) (h s : Nat) (l : List Nat) (hr : Ring m h l)
    (hs : s ∈ h :: l) :
    ∃ l2, Ring m s l2 ∧ (∀ x, x ∈ s :: l2 ↔ x ∈ h :: l) ∧ l2.length = l.length ∧
      (s = h → l2 = l) := by
  rcases List.mem_cons.mp hs with rfl | hs
  · exact ⟨l, hr, fun _ => Iff.rfl, rfl, fun _ => rfl⟩
  · obtain ⟨l1, l3, rfl⟩ := List.append_of_mem hs
    obtain ⟨hd, hnd⟩ := hr
    rw [dseg_append] at hd
    have hperm : List.Perm (s :: l3 ++ h :: l1) (h :: l1 ++ s :: l3) := List.perm_append_comm
    refine ⟨l3 ++ h :: l1, ⟨?_, ?_⟩, ?_, ?_, ?_⟩
    · rw [dseg_append]
      exact ⟨hd.2, hd.1⟩
    · exact hperm.nodup_iff.mpr hnd
    · intro x
      exact hperm.mem_iff
    · simp only [List.length_append, List.length_cons]
      omega
    · intro hh
      exfalso
      have := (List.nodup_cons.mp hnd).1
      rw [← hh] at this
      exact this (by simp)

theorem find_in_range_loop_seg {δ : Type} (m : DMem) (a e : Nat) (seg : List Nat)
    (pred : Nat → δ → Int) (data : δ) (hd : dseg m a seg e) (he : e ∉ seg) (fuel : Nat)
    (hf : seg.length < fuel) :
    find_in_range_loop m e pred data fuel (m.next a) =
      some (seg.find? (fun x => decide (pred x data ≠ 0))) := by
  induction seg generalizing a fuel with
  | nil =>
    cases fuel with
    | zero => simp at hf
    | succ f => simp [find_in_range_loop, hd.1]
  | cons x l ih =>
    cases fuel with
    | zero => simp at hf
    | succ f =>
      obtain ⟨h1, _, h3⟩ := hd
      simp only [List.mem_cons, not_or] at he
      have hxe : x ≠ e := fun hh => he.1 hh.symm
      rw [h1]
      by_cases hp : pred x data ≠ 0
      · simp [find_in_range_loop, hxe, hp, List.find?_cons]
      · have := ih x h3 he.2 f (by simpa using hf)
        simp only [ne_eq, not_not] at hp
        simp [find_in_range_loop, hxe, hp, List.find?_cons, this]

theorem dreach_dmemRun : DReach 0 dmemRun := by
  have r1 : Ring (genc_dlist_init dmem0 0) 0 [] := by decide
  have r2 : Ring (genc_dlist_insert_before (genc_dlist_init dmem0 0) 1 0) 0 [1] := by decide
  have r3 : Ring (genc_dlist_insert_after
      (genc_dlist_insert_before (genc_dlist_init dmem0 0) 1 0) 2 0) 0 [2, 1] := by decide
  refine DReach.remove 1 (DReach.insert_after 2 0 (DReach.insert_before 1 0
    (DReach.init dmem0) ?_ ?_) ?_ ?_) ?_ (by decide)
  · rw [inRing_iff _ 0 _ r1]
    decide
  · exact ⟨0, rfl⟩
  · rw [inRing_iff _ 0 _ r2]
    decide
  · exact ⟨0, rfl⟩
  · rw [inRing_iff _ 0 _ r3]
    decide

/-! ## Doubly-linked list: the properties of the specification -/

/-- C9 (ring invariant): in every memory reachable from a sentinel set up by
`genc_dlist_init` through `genc_dlist_insert_before` / `genc_dlist_insert_after` of nodes not
in the ring (relative to the sentinel or a node of the ring) and `genc_dlist_remove` of
non-sentinel nodes of the ring, every node `N` of the ring, the sentinel included, satisfies
`N.next.prev == N` and `N.prev.next == N`. -/
theorem genc_dlist_ring_invariant (h : Nat) (m : DMem) (hr : DReach h m) (N : Nat)
    (hN : InRing m h N) : m.prev (m.next N) = N ∧ m.next (m.prev N) = N := by
  obtain ⟨l, hl⟩ := dreach_ring h m hr
  rw [inRing_iff m h l hl] at hN
  obtain ⟨h1, h2⟩ := dseg_links m l h h hl.1
  refine ⟨h1 N hN, h2 N ?_⟩
  simp only [List.mem_cons] at hN
  simp only [List.mem_append, List.mem_singleton]
  exact hN.symm

/-- Witness for C9: after `init`, `insert_before(1, 0)`, `insert_after(2, 0)`, `remove(1)` the
node 2 of the ring of sentinel 0 is linked both ways. -/
theorem genc_dlist_ring_invariant_witness :
    DReach 0 dmemRun ∧ InRing dmemRun 0 2 ∧
    (dmemRun.prev (dmemRun.next 2) = 2 ∧ dmemRun.next (dmemRun.prev 2) = 2) :=
  ⟨dreach_dmemRun, ⟨1, rfl⟩, genc_dlist_ring_invariant 0 dmemRun dreach_dmemRun 2 ⟨1, rfl⟩⟩

/-- C10 (find_in_range returns the first match of the open range): in a well-formed ring with
sentinel `h` and data nodes `l`, for nodes `s` (start_after) and `e` (end_before) of the ring
there is the open range `seg`: the nodes met in next-order from `s.next` before `e` is reached.
It contains neither `s` nor `e`, is empty when `s.next == e`, and is the whole list `l` when
both are the sentinel. With more iterations allowed than `seg` has nodes,
`genc_dlist_find_in_range` returns the first node of `seg` for which `pred(node, data)` is
non-zero, and NULL when there is none. -/
theorem genc_dlist_find_in_range_first_match {δ : Type} (m : DMem) (h : Nat) (l : List Nat)
    (hr : Ring m h l) (s e : Nat) (hs : s ∈ h :: l) (he : e ∈ h :: l)
    (pred : Nat → δ → Int) (data : δ) :
    ∃ seg, dseg m s seg e ∧ s ∉ seg ∧ e ∉ seg ∧ seg.length ≤ l.length ∧
      (m.next s = e → seg = []) ∧ (s = h → e = h → seg = l) ∧
      ∀ fuel, seg.length < fuel →
        genc_dlist_find_in_range fuel m s e pred data =
          some (seg.find? (fun x => decide (pred x data ≠ 0))) := by
  obtain ⟨l2, hr2, hmem, hlen, hsame⟩ := ring_rotate m h s l hr hs
  have he2 : e ∈ s :: l2 := (hmem e).mpr he
  have hs2 : s ∉ l2 := (List.nodup_cons.mp hr2.2).1
  have key : ∃ seg, dseg m s seg e ∧ s ∉ seg ∧ e ∉ seg ∧ seg.length ≤ l.length ∧
      (s = h → e = h → seg = l) := by
    rcases List.mem_cons.mp he2 with rfl | he3
    · exact ⟨l2, hr2.1, hs2, hs2, by omega, fun hh _ => hsame hh⟩
    · obtain ⟨l3, l4, rfl⟩ := List.append_of_mem he3
      have hd := hr2.1
      rw [dseg_append] at hd
      obtain ⟨_, _, _, _, h5, _, _, _⟩ := nodup_split s e l3 l4 hr2.2
      refine ⟨l3, hd.1, ?_, h5, ?_, ?_⟩
      · exact fun hh => hs2 (List.mem_append_left _ hh)
      · rw [← hlen]
        simp
      · intro h1 h2
        exfalso
        apply hs2
        rw [h1, ← h2]
        simp
  obtain ⟨seg, hd, h1, h2, h3, h4⟩ := key
  refine ⟨seg, hd, h1, h2, h3, ?_, h4, ?_⟩
  · intro hn
    cases seg with
    | nil => rfl
    | cons x t =>
      exfalso
      apply h2
      rw [← hn, hd.1]
      simp
  · intro fuel hf
    exact find_in_range_loop_seg m s e seg pred data hd h2 fuel hf

/-- Witness for C10: over the list 1, 2, 3 with sentinel 0, searching the whole list for a
predicate matching only node 2 returns node 2, and for one matching nothing returns NULL. -/
theorem genc_dlist_find_in_range_first_match_witness :
    Ring dmemABC 0 [1, 2, 3] ∧
    genc_dlist_find_in_range 4 dmemABC 0 0 predIs 2 = some (some 2) ∧
    genc_dlist_find_in_range 4 dmemABC 0 0 predNever 2 = some none := by
  have hr : Ring dmemABC 0 [1, 2, 3] := by decide
  refine ⟨hr, ?_, ?_⟩
  · obtain ⟨seg, _, _, _, _, _, hl, hf⟩ :=
      genc_dlist_find_in_range_first_match dmemABC 0 [1, 2, 3] hr 0 0 (by decide) (by decide)
        predIs 2
    have hseg := hl rfl rfl
    subst hseg
    rw [hf 4 (by decide)]
    decide
  · obtain ⟨seg, _, _, _, _, _, hl, hf⟩ :=
      genc_dlist_find_in_range_first_match dmemABC 0 [1, 2, 3] hr 0 0 (by decide) (by decide)
        predNever 2
    have hseg := hl rfl rfl
    subst hseg
    rw [hf 4 (by decide)]
    decide

/-! ## Doubly-linked list: insertion order and emptiness -/

theorem dlist_forward_seg (m : DMem) (h a : Nat) (l : List Nat) (hd : dseg m a l h)
    (hl : h ∉ l) (fuel : Nat) (hf : l.length < fuel) :
    dlist_forward m h fuel (m.next a) = some l := by
  induction l generalizing a fuel with
  | nil =>
    cases fuel with
    | zero => simp at hf
    | succ f => simp [dlist_forward, hd.1]
  | cons x t ih =>
    cases fuel with
    | zero => simp at hf
    | succ f =>
      obtain ⟨h1, _, h3⟩ := hd
      simp only [List.mem_cons, not_or] at hl
      have hxh : x ≠ h := fun hh => hl.1 hh.symm
      have := ih x h3 hl.2 f (by simpa using hf)
      simp [dlist_forward, h1, hxh, this]

theorem ring_forward (m : DMem) (h : Nat) (l : List Nat) (hr : Ring m h l) (fuel : Nat)
    (hf : l.length < fuel) : dlist_forward m h fuel (m.next h) = some l :=
  dlist_forward_seg m h h l hr.1 (List.nodup_cons.mp hr.2).1 fuel hf

theorem insert_after_at (m : DMem) (h n a : Nat) (l1 l2 : List Nat)
    (hr : Ring m h (l1 ++ a :: l2)) (hn : n ∉ h :: (l1 ++ a :: l2)) :
    Ring (genc_dlist_insert_after m n a) h (l1 ++ a :: n :: l2) := by
  obtain ⟨l3, h3, hr3⟩ := insert_after_ring m h n a _ (h :: l1) l2 hr hn rfl
  have : l3 = l1 ++ a :: n :: l2 := by simpa using h3
  rw [← this]
  exact hr3

theorem insert_after_sentinel (m : DMem) (h n : Nat) (l : List Nat)
    (hr : Ring m h l) (hn : n ∉ h :: l) :
    Ring (genc_dlist_insert_after m n h) h (n :: l) := by
  obtain ⟨l3, h3, hr3⟩ := insert_after_ring m h n h l [] l hr hn rfl
  have : l3 = n :: l := by simpa using h3
  rw [← this]
  exact hr3

theorem insert_before_at (m : DMem) (h n b : Nat) (l1 l2 : List Nat)
    (hr : Ring m h (l1 ++ b :: l2)) (hn : n ∉ h :: (l1 ++ b :: l2)) :
    Ring (genc_dlist_insert_before m n b) h (l1 ++ n :: b :: l2) := by
  obtain ⟨l3, h3, hr3⟩ := insert_before_ring m h n b _ l1 (l2 ++ [h]) hr hn (by simp)
  have e : l1 ++ n :: b :: (l2 ++ [h]) = (l1 ++ n :: b :: l2) ++ [h] := by simp
  rw [e] at h3
  have : l3 = l1 ++ n :: b :: l2 := List.append_cancel_right h3
  rw [← this]
  exact hr3

theorem insert_before_sentinel (m : DMem) (h n : Nat) (l : List Nat)
    (hr : Ring m h l) (hn : n ∉ h :: l) :
    Ring (genc_dlist_insert_before m n h) h (l ++ [n]) := by
  obtain ⟨l3, h3, hr3⟩ := insert_before_ring m h n h l l [] hr hn rfl
  have e : l ++ [n, h] = (l ++ [n]) ++ [h] := by simp
  rw [e] at h3
  have : l3 = l ++ [n] := List.append_cancel_right h3
  rw [← this]
  exact hr3

/-- C11 (insertion order): in a well-formed ring whose forward traversal yields `l`, for a
node `n` not in the ring, `genc_dlist_insert_before(n, sentinel)` makes the traversal `l`
followed by `n` and `genc_dlist_insert_after(n, sentinel)` makes it `n` followed by `l`; for a
data node `b` (resp. `a`) of the list, `insert_before(n, b)` places `n` immediately before `b`
and `insert_after(n, a)` immediately after `a`, all other nodes keeping their order. In each
case the result is again a well-formed ring. -/
theorem genc_dlist_insert_order (m : DMem) (h n : Nat) (l : List Nat)
    (hr : Ring m h l) (hn : n ∉ h :: l) :
    (Ring (genc_dlist_insert_before m n h) h (l ++ [n]) ∧
      dlist_forward (genc_dlist_insert_before m n h) h (l.length + 2)
        ((genc_dlist_insert_before m n h).next h) = some (l ++ [n])) ∧
    (Ring (genc_dlist_insert_after m n h) h (n :: l) ∧
      dlist_forward (genc_dlist_insert_after m n h) h (l.length + 2)
        ((genc_dlist_insert_after m n h).next h) = some (n :: l)) ∧
    (∀ l1 b l2, l = l1 ++ b :: l2 →
      Ring (genc_dlist_insert_before m n b) h (l1 ++ n :: b :: l2) ∧
      dlist_forward (genc_dlist_insert_before m n b) h (l.length + 2)
        ((genc_dlist_insert_before m n b).next h) = some (l1 ++ n :: b :: l2)) ∧
    (∀ l1 a l2, l = l1 ++ a :: l2 →
      Ring (genc_dlist_insert_after m n a) h (l1 ++ a :: n :: l2) ∧
      dlist_forward (genc_dlist_insert_after m n a) h (l.length + 2)
        ((genc_dlist_insert_after m n a).next h) = some (l1 ++ a :: n :: l2)) := by
  refine ⟨?_, ?_, ?_, ?_⟩
  · have h1 := insert_before_sentinel m h n l hr hn
    exact ⟨h1, ring_forward _ h _ h1 _ (by simp)⟩
  · have h1 := insert_after_sentinel m h n l hr hn
    exact ⟨h1, ring_forward _ h _ h1 _ (by simp)⟩
  · intro l1 b l2 e
    subst e
    have h1 := insert_before_at m h n b l1 l2 hr hn
    exact ⟨h1, ring_forward _ h _ h1 _ (by simp; omega)⟩
  · intro l1 a l2 e
    subst e
    have h1 := insert_after_at m h n a l1 l2 hr hn
    exact ⟨h1, ring_forward _ h _ h1 _ (by simp; omega)⟩

/-- Witness for C11: inserting node 7 into the ring 0 -> 1 -> 2 -> 3 before the sentinel,
after the sentinel, before node 2 and after node 2. -/
theorem genc_dlist_insert_order_witness :
    Ring dmemABC 0 [1, 2, 3] ∧ 7 ∉ [0, 1, 2, 3] ∧
    dlist_forward (genc_dlist_insert_before dmemABC 7 0) 0 5
      ((genc_dlist_insert_before dmemABC 7 0).next 0) = some [1, 2, 3, 7] ∧
    dlist_forward (genc_dlist_insert_after dmemABC 7 0) 0 5
      ((genc_dlist_insert_after dmemABC 7 0).next 0) = some [7, 1, 2, 3] ∧
    Ring (genc_dlist_insert_before dmemABC 7 2) 0 [1, 7, 2, 3] ∧
    Ring (genc_dlist_insert_after dmemABC 7 2) 0 [1, 2, 7, 3] :=
  have h := genc_dlist_insert_order dmemABC 0 7 [1, 2, 3] (by decide) (by decide)
  ⟨by decide, by decide, h.1.2, h.2.1.2, (h.2.2.1 [1] 2 [3] rfl).1, (h.2.2.2 [1] 2 [3] rfl).1⟩

theorem ring_next_self_iff (m : DMem) (h : Nat) (l : List Nat) (hr : Ring m h l) :
    m.next h = h ↔ l = [] := by
  cases l with
  | nil => simp [hr.1.1]
  | cons x t =>
    have h1 : m.next h = x := hr.1.1
    have h2 : h ≠ x := by
      intro hh
      exact (List.nodup_cons.mp hr.2).1 (by simp [hh])
    simp only [h1, reduceCtorEq, iff_false]
    exact fun hh => h2 hh.symm

theorem ring_prev_self_iff (m : DMem) (h : Nat) (l : List Nat) (hr : Ring m h l) :
    m.prev h = h ↔ l = [] := by
  have hf : Ring m.flip h l.reverse := by
    rw [ring_flip, List.reverse_reverse]
    exact hr
  have := ring_next_self_iff m.flip h l.reverse hf
  simpa [DMem.flip] using this

theorem dlive_ring (h : Nat) (m : DMem) (live : List Nat) (hr : DLive h m live) :
    ∃ l, Ring m h l ∧ l.Perm live := by
  induction hr with
  | init m => exact ⟨[], init_ring m h, List.Perm.refl _⟩
  | @insert_before m live new_entry pos _ hn hp ih =>
    obtain ⟨l, hl, hperm⟩ := ih
    rw [inRing_iff m h l hl] at hn hp
    have hp2 : pos ∈ l ++ [h] := by
      simp only [List.mem_cons] at hp
      simp only [List.mem_append, List.mem_singleton]
      exact hp.symm
    obtain ⟨l1, l2, hsplit⟩ := List.append_of_mem hp2
    obtain ⟨l3, h3, hr3⟩ := insert_before_ring m h new_entry pos l l1 l2 hl hn hsplit
    refine ⟨l3, hr3, ?_⟩
    have p1 : (l3 ++ [h]).Perm (new_entry :: (l ++ [h])) := by
      rw [h3, hsplit]
      exact List.perm_middle
    have p2 : (h :: l3).Perm (h :: new_entry :: l) := by
      refine (List.perm_append_singleton h l3).symm.trans (p1.trans ?_)
      refine (List.Perm.cons new_entry (List.perm_append_singleton h l)).trans ?_
      exact List.Perm.swap h new_entry l
    exact (List.Perm.cons_inv p2).trans (List.Perm.cons new_entry hperm)
  | @insert_after m live new_entry pos _ hn hp ih =>
    obtain ⟨l, hl, hperm⟩ := ih
    rw [inRing_iff m h l hl] at hn hp
    obtain ⟨l1, l2, hsplit⟩ := List.append_of_mem hp
    obtain ⟨l3, h3, hr3⟩ := insert_after_ring m h new_entry pos l l1 l2 hl hn hsplit
    refine ⟨l3, hr3, ?_⟩
    have p1 : (h :: l3).Perm (new_entry :: h :: l) := by
      rw [h3, hsplit]
      have e : l1 ++ pos :: new_entry :: l2 = (l1 ++ [pos]) ++ new_entry :: l2 := by simp
      have e2 : l1 ++ pos :: l2 = (l1 ++ [pos]) ++ l2 := by simp
      rw [e, e2]
      exact List.perm_middle
    have p2 : (h :: l3).Perm (h :: new_entry :: l) :=
      p1.trans (List.Perm.swap h new_entry l)
    exact (List.Perm.cons_inv p2).trans (List.Perm.cons new_entry hperm)
  | @remove m live entry _ he ih =>
    obtain ⟨l, hl, hperm⟩ := ih
    have he2 : entry ∈ l := hperm.mem_iff.mpr he
    obtain ⟨l1, l2, rfl⟩ := List.append_of_mem he2
    refine ⟨l1 ++ l2, remove_ring m h entry l1 l2 hl, ?_⟩
    have hnd : (l1 ++ entry :: l2).Nodup := (List.nodup_cons.mp hl.2).2
    have hne : entry ∉ l1 := by
      intro hh
      exact (List.nodup_append.mp hnd).2.2 hh (List.mem_cons_self entry l2)
    have e : (l1 ++ entry :: l2).erase entry = l1 ++ l2 := by
      rw [List.erase_append_right _ hne, List.erase_cons_head]
    rw [← e]
    exact hperm.erase entry

theorem dlive_dmemDone : DLive 0 dmemDone ([2, 1].erase 1 |>.erase 2) := by
  have r1 : Ring (genc_dlist_init dmem0 0) 0 [] := by decide
  have r2 : Ring (genc_dlist_insert_before (genc_dlist_init dmem0 0) 1 0) 0 [1] := by decide
  refine DLive.remove 2 (DLive.remove 1 (DLive.insert_after 2 0 (DLive.insert_before 1 0
    (DLive.init dmem0) ?_ ?_) ?_ ?_) (by decide)) (by decide)
  · rw [inRing_iff _ 0 _ r1]
    decide
  · exact ⟨0, rfl⟩
  · rw [inRing_iff _ 0 _ r2]
    decide
  · exact ⟨0, rfl⟩

/-- C12 (is_empty characterises emptiness): in every memory reachable from
`genc_dlist_init` by inserting nodes not in the ring and removing inserted, still linked nodes,
with `live` the inserted nodes not removed since, `genc_dlist_is_empty` is non-zero exactly
when `live` is empty; this is the condition `list.next == list`, which in such a memory holds
exactly when `list.prev == list`. -/
theorem genc_dlist_is_empty_iff (h : Nat) (m : DMem) (live : List Nat)
    (hr : DLive h m live) :
    (genc_dlist_is_empty m h ≠ 0 ↔ live = []) ∧
    (genc_dlist_is_empty m h ≠ 0 ↔ m.next h = h) ∧
    (m.next h = h ↔ m.prev h = h) := by
  obtain ⟨l, hl, hperm⟩ := dlive_ring h m live hr
  have h1 : genc_dlist_is_empty m h ≠ 0 ↔ m.next h = h := by
    unfold genc_dlist_is_empty
    by_cases hh : m.next h = h <;> simp [hh]
  have h2 : l = [] ↔ live = [] := by
    constructor
    · intro e
      rw [e] at hperm
      exact List.Perm.nil_eq hperm |>.symm
    · intro e
      rw [e] at hperm
      exact List.Perm.eq_nil hperm
  refine ⟨?_, h1, ?_⟩
  · rw [h1, ring_next_self_iff m h l hl, h2]
  · rw [ring_next_self_iff m h l hl, ring_prev_self_iff m h l hl]

/-- Witness for C12: after inserting 1 and 2 and removing both, the list with sentinel 0 is
empty; with node 2 still inserted it is not. -/
theorem genc_dlist_is_empty_iff_witness :
    DLive 0 dmemDone [] ∧ genc_dlist_is_empty dmemDone 0 ≠ 0 ∧
    genc_dlist_is_empty dmemRun 0 = 0 :=
  ⟨dlive_dmemDone, (genc_dlist_is_empty_iff 0 dmemDone [] dlive_dmemDone).1.mpr rfl,
    by decide⟩

/-! ## Singly-linked list: `genc_slist_remove_at` -/

theorem remove_at_fields (m : Mem) (slot : Slot) (x : Nat) (hx : m.load slot = some x) :
    (genc_slist_remove_at m slot).2 = some x ∧
    (genc_slist_remove_at m slot).1.next =
      (fun k => if k = x then none else if slot = .next k then m.next x else m.next k) ∧
    (genc_slist_remove_at m slot).1.queue =
      (fun k => if slot = .head k then { m.queue k with head := m.next x } else m.queue k) := by
  cases slot with
  | head q =>
    refine ⟨?_, ?_, ?_⟩
    · simp [genc_slist_remove_at, hx]
    · funext k
      simp [genc_slist_remove_at, hx, Mem.store]
    · funext k
      by_cases hk : k = q
      · subst hk
        simp [genc_slist_remove_at, hx, Mem.store]
      · have hk2 : q ≠ k := fun hh => hk hh.symm
        simp [genc_slist_remove_at, hx, Mem.store, hk, hk2]
  | next z =>
    refine ⟨?_, ?_, ?_⟩
    · simp [genc_slist_remove_at, hx]
    · funext k
      by_cases hk : k = z
      · subst hk
        simp [genc_slist_remove_at, hx, Mem.store]
      · have hk2 : z ≠ k := fun hh => hk hh.symm
        simp [genc_slist_remove_at, hx, Mem.store, hk, hk2]
    · funext k
      simp [genc_slist_remove_at, hx, Mem.store]

theorem lseg_slot_not_mem (next : Nat → Option Nat) (z : Nat) (xs : List Nat)
    (hc : lseg next (next z) xs none) : z ∉ xs := by
  intro hz
  obtain ⟨l1, l2, rfl⟩ := List.append_of_mem hz
  have hs := lseg_suffix next l1 l2 z _ none hc
  rw [lseg_cons] at hs
  have := lseg_unique next _ _ _ hs.2 hc
  have hlen := congrArg List.length this
  simp at hlen
  omega

theorem slotAfter_nil (s0 : Slot) : slotAfter s0 [] = s0 := rfl

theorem slotAfter_snoc (s0 : Slot) (l : List Nat) (p : Nat) :
    slotAfter s0 (l ++ [p]) = .next p := by
  simp [slotAfter]

theorem remove_at_chain (m : Mem) (s0 : Slot) (x : Nat) (l1 l2 : List Nat)
    (hc : lseg m.next (m.load s0) (l1 ++ x :: l2) none) :
    (genc_slist_remove_at m (slotAfter s0 l1)).2 = some x ∧
    lseg (genc_slist_remove_at m (slotAfter s0 l1)).1.next
      ((genc_slist_remove_at m (slotAfter s0 l1)).1.load s0) (l1 ++ l2) none ∧
    (genc_slist_remove_at m (slotAfter s0 l1)).1.next x = none := by
  have hnd := lseg_nodup _ _ _ hc
  have hs0 : ∀ z, s0 = .next z → z ∉ l1 ++ x :: l2 := by
    intro z hz
    rw [hz] at hc
    exact lseg_slot_not_mem m.next z _ hc
  rcases nil_or_snoc l1 with rfl | ⟨l3, p, rfl⟩
  · rw [slotAfter_nil]
    simp only [List.nil_append] at hc hnd hs0 ⊢
    rw [lseg_cons] at hc
    obtain ⟨h0, h1, h2⟩ := remove_at_fields m s0 x hc.1
    have hxl : x ∉ l2 := (List.nodup_cons.mp hnd).1
    have hload : (genc_slist_remove_at m s0).1.load s0 = m.next x := by
      cases s0 with
      | head q => simp [Mem.load, h2]
      | next z =>
        have hzx : z ≠ x := fun hh => hs0 z rfl (by simp [hh])
        simp [Mem.load, h1, hzx]
    refine ⟨h0, ?_, by simp [h1]⟩
    rw [hload, h1]
    refine (lseg_congr _ m.next l2 _ _ ?_).mpr hc.2
    intro k hk
    have hkx : k ≠ x := fun hh => hxl (hh ▸ hk)
    have hks : s0 ≠ .next k := fun hh => hs0 k hh (List.mem_cons_of_mem x hk)
    simp [hkx, hks]
  · rw [slotAfter_snoc]
    have e : l3 ++ [p] ++ x :: l2 = l3 ++ p :: x :: l2 := by simp
    rw [e] at hc hnd hs0
    rw [lseg_append] at hc
    obtain ⟨mid, hc1, hc2⟩ := hc
    rw [lseg_cons, lseg_cons] at hc2
    obtain ⟨hmid, hpx, hrest⟩ := hc2
    subst hmid
    have hload0 : m.load (.next p) = some x := hpx
    obtain ⟨h0, h1, h2⟩ := remove_at_fields m (.next p) x hload0
    obtain ⟨_, hp3, hx3, n3, hx3b, _⟩ : p ∉ l3 ∧ p ∉ l3 ∧ x ∉ l3 ∧ l3.Nodup ∧ x ∉ l3 ∧ True := by
      have a := List.nodup_append.mp hnd
      have hp : p ∉ l3 := fun hh => a.2.2 hh (by simp)
      have hx : x ∉ l3 := fun hh => a.2.2 hh (by simp)
      exact ⟨hp, hp, hx, a.1, hx, trivial⟩
    have hnd2 : (p :: x :: l2).Nodup := (List.nodup_append.mp hnd).2.1
    have hpx2 : p ≠ x := fun hh => (List.nodup_cons.mp hnd2).1 (by simp [hh])
    have hpl2 : p ∉ l2 := fun hh => (List.nodup_cons.mp hnd2).1 (by simp [hh])
    have hxl2 : x ∉ l2 := (List.nodup_cons.mp (List.nodup_cons.mp hnd2).2).1
    have hload : (genc_slist_remove_at m (.next p)).1.load s0 = m.load s0 := by
      cases s0 with
      | head q => simp [Mem.load, h2]
      | next z =>
        have hz := hs0 z rfl
        have hzx : z ≠ x := fun hh => hz (by simp [hh])
        have hzp : p ≠ z := fun hh => hz (by simp [hh])
        simp [Mem.load, h1, hzx, hzp]
    refine ⟨h0, ?_, by simp [h1]⟩
    rw [hload, h1]
    have e2 : l3 ++ [p] ++ l2 = l3 ++ p :: l2 := by simp
    rw [e2, lseg_append]
    refine ⟨some p, ?_, ?_⟩
    · refine (lseg_congr _ m.next l3 _ _ ?_).mpr hc1
      intro k hk
      have hkx : k ≠ x := fun hh => hx3 (hh ▸ hk)
      have hkp : p ≠ k := fun hh => hp3 (hh ▸ hk)
      simp [hkx, hkp]
    · rw [lseg_cons]
      refine ⟨rfl, ?_⟩
      simp only [if_neg hpx2, if_true]
      refine (lseg_congr _ m.next l2 _ _ ?_).mpr hrest
      intro k hk
      have hkx : k ≠ x := fun hh => hxl2 (hh ▸ hk)
      have hkp : p ≠ k := fun hh => hpl2 (hh ▸ hk)
      simp [hkx, hkp]

/-- C13 (remove_at on an empty slot): for every slot, a list head or a node's `next` field,
whose content is none, `genc_slist_remove_at` returns none and leaves the whole memory (the
slot and every node's `next` field) unchanged. -/
theorem genc_slist_remove_at_empty (m : Mem) (slot : Slot) (hs : m.load slot = none) :
    genc_slist_remove_at m slot = (m, none) := by
  simp [genc_slist_remove_at, hs]

/-- Witness for C13: removing at the empty list head at address 0 and at the `next` field of
node 3, which is none. -/
theorem genc_slist_remove_at_empty_witness :
    mem0.load (.head 0) = none ∧ genc_slist_remove_at mem0 (.head 0) = (mem0, none) ∧
    genc_slist_remove_at mem0 (.next 3) = (mem0, none) :=
  ⟨rfl, genc_slist_remove_at_empty mem0 (.head 0) rfl,
    genc_slist_remove_at_empty mem0 (.next 3) rfl⟩

/-- C14 (remove_at on a non-empty slot): for every slot whose content is a node `x` of a
well-formed (acyclic, none-terminated) chain `x :: t` reached through the slot,
`genc_slist_remove_at` returns `x`, leaves the slot holding the former successor of `x`, so
that the slot now reaches the chain `t`, leaves `x.next` none, and changes no `next` field other
than the slot and `x.next`, no other list head and no tail; so when a well-formed chain
`l1 ++ x :: l2` is reached through a slot `s0` and the removal is at the slot that holds `x`,
the chain reached through `s0` afterwards is `l1 ++ l2`. -/
theorem genc_slist_remove_at_nonempty (m : Mem) (slot : Slot) (x : Nat) (t : List Nat)
    (hwf : lseg m.next (m.load slot) (x :: t) none) :
    (genc_slist_remove_at m slot).2 = some x ∧
    (genc_slist_remove_at m slot).1.load slot = m.next x ∧
    lseg (genc_slist_remove_at m slot).1.next ((genc_slist_remove_at m slot).1.load slot)
      t none ∧
    (genc_slist_remove_at m slot).1.next x = none ∧
    (∀ z, z ≠ x → slot ≠ .next z → (genc_slist_remove_at m slot).1.next z = m.next z) ∧
    (∀ q, slot ≠ .head q → (genc_slist_remove_at m slot).1.queue q = m.queue q) ∧
    (∀ q, ((genc_slist_remove_at m slot).1.queue q).tail = (m.queue q).tail) ∧
    (∀ s0 l1 l2, lseg m.next (m.load s0) (l1 ++ x :: l2) none → slot = slotAfter s0 l1 →
      lseg (genc_slist_remove_at m slot).1.next ((genc_slist_remove_at m slot).1.load s0)
        (l1 ++ l2) none) := by
  have hx : m.load slot = some x := ((lseg_cons ..).mp hwf).1
  have hs : slot ≠ .next x := by
    intro hh
    rw [hh] at hwf
    exact lseg_slot_not_mem m.next x (x :: t) hwf (List.mem_cons_self x t)
  obtain ⟨h0, h1, h2⟩ := remove_at_fields m slot x hx
  refine ⟨h0, ?_, ?_, by simp [h1], ?_, ?_, ?_, ?_⟩
  · cases slot with
    | head q => simp [Mem.load, h2]
    | next z =>
      have hzx : z ≠ x := fun hh => hs (by rw [hh])
      simp [Mem.load, h1, hzx]
  · have := (remove_at_chain m slot x [] t hwf).2.1
    rw [slotAfter_nil] at this
    simpa using this
  · intro z hz hsz
    simp [h1, hz, hsz]
  · intro q hq
    simp [h2, hq]
  · intro q
    rw [h2]
    by_cases hq : slot = .head q <;> simp [hq]
  · intro s0 l1 l2 hc hsl
    rw [hsl]
    exact (remove_at_chain m s0 x l1 l2 hc).2.1

/-- Witness for C14: in the chain 10, 20, 30, 40 held by the list head at address 0, removing
at the `next` field of node 10 returns node 20, detaches it and leaves 10, 30, 40. -/
theorem genc_slist_remove_at_nonempty_witness :
    lseg memFour.next (memFour.load (.next 10)) [20, 30, 40] none ∧
    (genc_slist_remove_at memFour (.next 10)).2 = some 20 ∧
    (genc_slist_remove_at memFour (.next 10)).1.load (.next 10) = some 30 ∧
    (genc_slist_remove_at memFour (.next 10)).1.next 20 = none ∧
    lseg (genc_slist_remove_at memFour (.next 10)).1.next
      ((genc_slist_remove_at memFour (.next 10)).1.load (.head 0)) [10, 30, 40] none :=
  have h := genc_slist_remove_at_nonempty memFour (.next 10) 20 [30, 40] (by decide)
  ⟨by decide, h.1, h.2.1, h.2.2.2.1,
    h.2.2.2.2.2.2.2 (.head 0) [10] [30, 40] (by decide) rfl⟩

/-! ## Singly-linked list: the removing loop -/


theorem slist_loop_stop {σ : Type} (body : σ → Mem → Int → σ × Bool) (slot : Slot)
    (offset : Int) (fuel : Nat) (m : Mem) (st : σ) (hs : m.load slot = none) :
    genc_slist_for_each_remove body slot offset (fuel + 1) m st = some (m, st) := by
  simp [genc_slist_for_each_remove, genc_slist_remove_object_at, genc_slist_remove_at, hs,
    genc_container_of_helper]

theorem slist_loop_step {σ : Type} (body : σ → Mem → Int → σ × Bool) (slot : Slot)
    (offset : Int) (fuel : Nat) (m : Mem) (st : σ) (x : Nat) (hs : m.load slot = some x) :
    genc_slist_for_each_remove body slot offset (fuel + 1) m st =
      if (body st (genc_slist_remove_at m slot).1 ((x : Int) - offset)).2 then
        some ((genc_slist_remove_at m slot).1,
          (body st (genc_slist_remove_at m slot).1 ((x : Int) - offset)).1)
      else genc_slist_for_each_remove body slot offset fuel (genc_slist_remove_at m slot).1
        (body st (genc_slist_remove_at m slot).1 ((x : Int) - offset)).1 := by
  have h0 := (remove_at_fields m slot x hs).1
  simp [genc_slist_for_each_remove, genc_slist_remove_object_at, h0, genc_container_of_helper]

theorem slistLogBody_eq (k : Nat) (offset : Int) (st : List (Int × Option Nat)) (m : Mem)
    (x : Nat) (hx : m.next x = none) :
    slistLogBody k offset st m ((x : Int) - offset) =
      (st ++ [((x : Int) - offset, none)], decide (st.length + 1 = k)) := by
  simp [slistLogBody, hx]

theorem slist_loop_log (k : Nat) (offset : Int) (slot : Slot) (xs : List Nat) (m : Mem)
    (st : List (Int × Option Nat)) (fuel : Nat)
    (hc : lseg m.next (m.load slot) xs none) :
    (st.length < k → k ≤ st.length + xs.length → k - st.length ≤ fuel →
      ∃ m1, genc_slist_for_each_remove (slistLogBody k offset) slot offset fuel m st =
          some (m1, st ++ (xs.take (k - st.length)).map (fun (x : Nat) => ((x : Int) - offset, (none : Option Nat)))) ∧
        lseg m1.next (m1.load slot) (xs.drop (k - st.length)) none) ∧
    (k ≤ st.length → xs.length < fuel →
      ∃ m1, genc_slist_for_each_remove (slistLogBody k offset) slot offset fuel m st =
          some (m1, st ++ xs.map (fun (x : Nat) => ((x : Int) - offset, (none : Option Nat)))) ∧
        m1.load slot = none) := by
  induction xs generalizing m st fuel with
  | nil =>
    refine ⟨fun h1 h2 _ => ?_, fun _ h2 => ?_⟩
    · simp at h2
      omega
    · cases fuel with
      | zero => simp at h2
      | succ f =>
        have hs : m.load slot = none := by simpa using hc
        exact ⟨m, by simp [slist_loop_stop _ slot offset f m st hs], hs⟩
  | cons x t ih =>
    have hs : m.load slot = some x := ((lseg_cons ..).mp hc).1
    obtain ⟨_, hc1, hx1⟩ := remove_at_chain m slot x [] t hc
    rw [slotAfter_nil] at hc1 hx1
    simp only [List.nil_append] at hc1
    have hb := slistLogBody_eq k offset st (genc_slist_remove_at m slot).1 x hx1
    refine ⟨fun h1 h2 h3 => ?_, fun h1 h2 => ?_⟩
    · obtain ⟨j, hj⟩ : ∃ j, k - st.length = j + 1 := ⟨k - st.length - 1, by omega⟩
      cases fuel with
      | zero => omega
      | succ f =>
        rw [slist_loop_step _ slot offset f m st x hs, hb, hj]
        by_cases hk : st.length + 1 = k
        · have hj0 : j = 0 := by omega
          subst hj0
          refine ⟨(genc_slist_remove_at m slot).1, ?_, ?_⟩
          · simp [hk]
          · simpa using hc1
        · simp only [hk, decide_False, Bool.false_eq_true, if_false]
          have hlen : (st ++ [((x : Int) - offset, (none : Option Nat))]).length
              = st.length + 1 := by simp
          obtain ⟨m1, e1, e2⟩ := (ih _ (st ++ [((x : Int) - offset, none)]) f hc1).1
            (by rw [hlen]; omega)
            (by rw [hlen]; simp at h2; omega) (by rw [hlen]; omega)
          have hj2 : k - (st ++ [((x : Int) - offset, (none : Option Nat))]).length = j := by
            rw [hlen]
            omega
          rw [hj2] at e1 e2
          refine ⟨m1, ?_, ?_⟩
          · rw [e1]
            simp
          · simpa using e2
    · cases fuel with
      | zero => simp at h2
      | succ f =>
        rw [slist_loop_step _ slot offset f m st x hs, hb]
        have hk : ¬ st.length + 1 = k := by omega
        simp only [hk, decide_False, Bool.false_eq_true, if_false]
        obtain ⟨m1, e1, e2⟩ := (ih _ (st ++ [((x : Int) - offset, none)]) f hc1).2
          (by simp; omega) (by simpa using h2)
        refine ⟨m1, ?_, e2⟩
        rw [e1]
        simp

theorem slist_loop_any {σ : Type} (body : σ → Mem → Int → σ × Bool) (slot : Slot)
    (offset : Int) (xs : List Nat) (m : Mem) (st : σ) (fuel : Nat)
    (hc : lseg m.next (m.load slot) xs none) (hf : xs.length < fuel) :
    ∃ j m1 st1, j ≤ xs.length ∧
      genc_slist_for_each_remove body slot offset fuel m st = some (m1, st1) ∧
      lseg m1.next (m1.load slot) (xs.drop j) none := by
  induction xs generalizing m st fuel with
  | nil =>
    cases fuel with
    | zero => simp at hf
    | succ f =>
      have hs : m.load slot = none := by simpa using hc
      exact ⟨0, m, st, by simp, slist_loop_stop body slot offset f m st hs, by simpa using hc⟩
  | cons x t ih =>
    cases fuel with
    | zero => simp at hf
    | succ f =>
      have hs : m.load slot = some x := ((lseg_cons ..).mp hc).1
      obtain ⟨_, hc1, _⟩ := remove_at_chain m slot x [] t hc
      rw [slotAfter_nil] at hc1
      simp only [List.nil_append] at hc1
      rw [slist_loop_step body slot offset f m st x hs]
      by_cases hb : (body st (genc_slist_remove_at m slot).1 ((x : Int) - offset)).2 = true
      · refine ⟨1, (genc_slist_remove_at m slot).1,
          (body st (genc_slist_remove_at m slot).1 ((x : Int) - offset)).1, by simp,
          by simp only [hb, if_true], ?_⟩
        simpa using hc1
      · obtain ⟨j, m1, st1, hj, e1, e2⟩ := ih (genc_slist_remove_at m slot).1
          (body st (genc_slist_remove_at m slot).1 ((x : Int) - offset)).1 f hc1
          (by simpa using hf)
        refine ⟨j + 1, m1, st1, by simpa using hj, ?_, by simpa using e2⟩
        simp only [hb, Bool.false_eq_true, if_false]
        exact e1

/-- C15 (abandonable removing iteration, singly-linked): for a well-formed chain `xs` held in
the slot `list_head`, a `genc_slist_for_each_remove` loop left with `break` during its `k`-th
body execution (`1 <= k <= xs.length`) ends within `k` removals, has bound the loop variable
to the records of the first `k` nodes in order, each with `next` none on entry to the body,
and leaves `list_head` holding the well-formed chain of the remaining nodes; a loop that is
never left early ends after exactly `xs.length` body executions with `list_head` holding
none. Whatever the body, and wherever it leaves the loop, the loop ends and `list_head` holds
the well-formed chain of a suffix of `xs`. -/
theorem genc_slist_for_each_remove_abandon (m : Mem) (list_head : Slot) (offset : Int)
    (xs : List Nat) (k fuel : Nat) {σ : Type} (body : σ → Mem → Int → σ × Bool) (st : σ)
    (hc : lseg m.next (m.load list_head) xs none) :
    (1 ≤ k → k ≤ xs.length → k ≤ fuel →
      ∃ m1, genc_slist_for_each_remove (slistLogBody k offset) list_head offset fuel m [] =
          some (m1, (xs.take k).map (fun (x : Nat) => ((x : Int) - offset, (none : Option Nat)))) ∧
        lseg m1.next (m1.load list_head) (xs.drop k) none) ∧
    (xs.length < fuel →
      ∃ m1, genc_slist_for_each_remove (slistLogBody 0 offset) list_head offset fuel m [] =
          some (m1, xs.map (fun (x : Nat) => ((x : Int) - offset, (none : Option Nat)))) ∧
        m1.load list_head = none) ∧
    (xs.length < fuel →
      ∃ j m1 st1, j ≤ xs.length ∧
        genc_slist_for_each_remove body list_head offset fuel m st = some (m1, st1) ∧
        lseg m1.next (m1.load list_head) (xs.drop j) none) := by
  refine ⟨fun h1 h2 h3 => ?_, fun h1 => ?_, fun h1 => ?_⟩
  · have := (slist_loop_log k offset list_head xs m [] fuel hc).1 (by simpa using h1)
      (by simpa using h2) (by simpa using h3)
    simpa using this
  · have := (slist_loop_log 0 offset list_head xs m [] fuel hc).2 (by simp) h1
    simpa using this
  · exact slist_loop_any body list_head offset xs m st fuel hc h1

/-- Witness for C15: over the chain 10, 20, 30, 40 (list heads embedded at offset 8), a loop
left in its second body execution has seen the records 2 and 12, both detached, and leaves
the chain 30, 40; a loop never left early sees all four records and leaves the head none. -/
theorem genc_slist_for_each_remove_abandon_witness :
    lseg memFour.next (memFour.load (.head 0)) [10, 20, 30, 40] none ∧
    (∃ m1, genc_slist_for_each_remove (slistLogBody 2 8) (.head 0) 8 2 memFour [] =
        some (m1, [(2, none), (12, none)]) ∧
      lseg m1.next (m1.load (.head 0)) [30, 40] none) ∧
    (∃ m1, genc_slist_for_each_remove (slistLogBody 0 8) (.head 0) 8 5 memFour [] =
        some (m1, [(2, none), (12, none), (22, none), (32, none)]) ∧
      m1.load (.head 0) = none) :=
  ⟨by decide,
    (genc_slist_for_each_remove_abandon memFour (.head 0) 8 [10, 20, 30, 40] 2 2
      (slistLogBody 2 8) [] (by decide)).1 (by decide) (by decide) (by decide),
    (genc_slist_for_each_remove_abandon memFour (.head 0) 8 [10, 20, 30, 40] 0 5
      (slistLogBody 0 8) [] (by decide)).2.1 (by decide)⟩

/-! ## Singly-linked list: searching -/

theorem find_entry_chain (pred : Nat → Int) (m : Mem) (xs : List Nat) (h : Option Nat)
    (fuel : Nat) (hc : lseg m.next h xs none) (hf : xs.length < fuel) :
    genc_slist_find_entry pred m fuel h = some (xs.find? (fun x => decide (pred x ≠ 0))) := by
  induction xs generalizing h fuel with
  | nil =>
    cases fuel with
    | zero => simp at hf
    | succ f =>
      have hh : h = none := by simpa using hc
      simp [genc_slist_find_entry, hh]
  | cons x t ih =>
    cases fuel with
    | zero => simp at hf
    | succ f =>
      rw [lseg_cons] at hc
      obtain ⟨hh, hr⟩ := hc
      subst hh
      by_cases hp : pred x ≠ 0
      · simp [genc_slist_find_entry, hp, List.find?_cons]
      · have := ih _ f hr (by simpa using hf)
        simp only [ne_eq, not_not] at hp
        simp [genc_slist_find_entry, hp, List.find?_cons, this]

theorem find_entry_ref_chain (pred : Nat → Int) (m : Mem) (xs : List Nat) (s : Slot)
    (fuel : Nat) (hc : lseg m.next (m.load s) xs none) (hf : xs.length < fuel) :
    ∃ r, genc_slist_find_entry_ref pred m fuel s = some r ∧
      (r = s ∨ ∃ x ∈ xs, r = .next x) ∧
      m.load r = xs.find? (fun x => decide (pred x ≠ 0)) ∧
      (∃ l1 l2, xs = l1 ++ l2 ∧ r = slotAfter s l1 ∧ (∀ x ∈ l1, pred x = 0) ∧
        lseg m.next (m.load r) l2 none) := by
  induction xs generalizing s fuel with
  | nil =>
    cases fuel with
    | zero => simp at hf
    | succ f =>
      have hh : m.load s = none := by simpa using hc
      refine ⟨s, by simp [genc_slist_find_entry_ref, hh], Or.inl rfl, by simp [hh], ?_⟩
      exact ⟨[], [], rfl, rfl, by simp, by simp [hh]⟩
  | cons x t ih =>
    cases fuel with
    | zero => simp at hf
    | succ f =>
      have hc2 := hc
      rw [lseg_cons] at hc2
      obtain ⟨hh, hr⟩ := hc2
      by_cases hp : pred x ≠ 0
      · refine ⟨s, by simp [genc_slist_find_entry_ref, hh, hp], Or.inl rfl,
          by simp [hh, hp, List.find?_cons], ?_⟩
        exact ⟨[], x :: t, rfl, rfl, by simp, hc⟩
      · simp only [ne_eq, not_not] at hp
        have hr2 : lseg m.next (m.load (.next x)) t none := hr
        obtain ⟨r, e1, e2, e3, l1, l2, e4, e5, e6, e7⟩ := ih (.next x) f hr2 (by simpa using hf)
        refine ⟨r, by simp [genc_slist_find_entry_ref, hh, hp, e1], ?_,
          by simp [hp, List.find?_cons, e3], ?_⟩
        · rcases e2 with e2 | ⟨y, hy, e2⟩
          · exact Or.inr ⟨x, by simp, e2⟩
          · exact Or.inr ⟨y, List.mem_cons_of_mem x hy, e2⟩
        · refine ⟨x :: l1, l2, by simp [e4], ?_, ?_, e7⟩
          · rw [e5]
            rcases nil_or_snoc l1 with rfl | ⟨l3, p, rfl⟩
            · simp [slotAfter]
            · have : x :: (l3 ++ [p]) = (x :: l3) ++ [p] := by simp
              rw [this, slotAfter_snoc, slotAfter_snoc]
          · intro y hy
            rcases List.mem_cons.mp hy with rfl | hy
            · exact hp
            · exact e6 y hy

/-- C16 (find_entry_ref agrees with find_entry): for a well-formed chain `xs` reached through
the slot `s` and any predicate, with more steps allowed than the chain has nodes,
`genc_slist_find_entry_ref` returns a slot `r` that is `s` itself or the `next` field of a node
of the chain; `r` is the slot following a prefix of the chain on which the predicate is zero;
the content of `r` is what `genc_slist_find_entry` returns from `*s`, namely the first node of
the chain for which the predicate is non-zero; and when no node matches, `r` is the slot at the
chain's end (`s` itself for an empty chain), its content is none and `genc_slist_find_entry`
returns none. -/
theorem genc_slist_find_entry_ref_agrees (pred : Nat → Int) (m : Mem) (s : Slot)
    (xs : List Nat) (fuel : Nat) (hc : lseg m.next (m.load s) xs none)
    (hf : xs.length < fuel) :
    ∃ r, genc_slist_find_entry_ref pred m fuel s = some r ∧
      (r = s ∨ ∃ x ∈ xs, r = .next x) ∧
      (∃ l1 l2, xs = l1 ++ l2 ∧ r = slotAfter s l1 ∧ ∀ x ∈ l1, pred x = 0) ∧
      genc_slist_find_entry pred m fuel (m.load s) = some (m.load r) ∧
      m.load r = xs.find? (fun x => decide (pred x ≠ 0)) ∧
      ((∀ x ∈ xs, pred x = 0) →
        r = slotAfter s xs ∧ m.load r = none ∧
        genc_slist_find_entry pred m fuel (m.load s) = some none) := by
  obtain ⟨r, e1, e2, e3, l1, l2, e4, e5, e6, e7⟩ := find_entry_ref_chain pred m xs s fuel hc hf
  have e8 := find_entry_chain pred m xs (m.load s) fuel hc hf
  refine ⟨r, e1, e2, ⟨l1, l2, e4, e5, e6⟩, by rw [e8, e3], e3, ?_⟩
  intro hno
  have hnone : xs.find? (fun x => decide (pred x ≠ 0)) = none := by
    rw [List.find?_eq_none]
    intro x hx
    simp [hno x hx]
  have hl : m.load r = none := by rw [e3, hnone]
  have hl2 : l2 = [] := by
    rw [hl] at e7
    cases l2 with
    | nil => rfl
    | cons y t => simp at e7
  subst hl2
  rw [List.append_nil] at e4
  subst e4
  exact ⟨e5, hl, by rw [e8, hnone]⟩

/-- Witness for C16: in the chain 10, 20, 30, 40 held by the list head at address 0, searching
for node 30 gives the `next` field of node 20 and the node 30. -/
theorem genc_slist_find_entry_ref_agrees_witness :
    lseg memFour.next (memFour.load (.head 0)) [10, 20, 30, 40] none ∧
    genc_slist_find_entry_ref (fun x => predIs x 30) memFour 5 (.head 0)
      = some (.next 20) ∧
    genc_slist_find_entry (fun x => predIs x 30) memFour 5 (memFour.load (.head 0))
      = some (memFour.load (.next 20)) ∧
    memFour.load (.next 20) = some 30 := by
  have hc : lseg memFour.next (memFour.load (.head 0)) [10, 20, 30, 40] none := by decide
  obtain ⟨r, e1, _, _, e4, _, _⟩ :=
    genc_slist_find_entry_ref_agrees (fun x => predIs x 30) memFour (.head 0) [10, 20, 30, 40] 5
      hc (by decide)
  have hr : genc_slist_find_entry_ref (fun x => predIs x 30) memFour 5 (.head 0)
      = some (.next 20) := by decide
  rw [hr] at e1
  have hr2 : r = .next 20 := (Option.some.inj e1).symm
  subst hr2
  exact ⟨hc, hr, e4, by decide⟩

/-! ## Recovery of the enclosing record -/

/-- C17 (recovery operation): `genc_container_of_helper` returns NULL for a NULL member
pointer whatever the offset, and otherwise the address `obj - offset`; hence from the member
address `r + d` of a record at `r` with member offset `d` it recovers `r`; and the typed
macros `genc_slist_next` and `genc_slist_remove_object_at` yield NULL exactly when the
underlying link (the `next` field read, resp. the content of the slot) is none. -/
theorem genc_container_of_recovery :
    (∀ offset : Int, genc_container_of_helper none offset = none) ∧
    (∀ (p : Nat) (offset : Int),
      genc_container_of_helper (some p) offset = some ((p : Int) - offset)) ∧
    (∀ r d : Nat, genc_container_of_helper (some (r + d)) (d : Int) = some (r : Int)) ∧
    (∀ (m : Mem) (cur offset : Int),
      genc_slist_next m cur offset = none ↔ m.next (cur + offset).toNat = none) ∧
    (∀ (m : Mem) (slot : Slot) (offset : Int),
      (genc_slist_remove_object_at m slot offset).2 = none ↔ m.load slot = none) := by
  refine ⟨fun _ => rfl, fun _ _ => rfl, ?_, ?_, ?_⟩
  · intro r d
    simp [genc_container_of_helper]
  · intro m cur offset
    unfold genc_slist_next genc_container_of_helper
    cases m.next (cur + offset).toNat <;> simp
  · intro m slot offset
    unfold genc_slist_remove_object_at genc_container_of_helper genc_slist_remove_at
    cases m.load slot <;> simp

/-! ## Doubly-linked list: the removing loop -/

theorem dlist_loop_stop {σ : Type} (body : σ → DMem → Int → σ × Bool) (h : Nat)
    (offset : Int) (fuel : Nat) (m : DMem) (st : σ) (hr : Ring m h []) :
    genc_dlist_for_each_remove body h offset (fuel + 1) m st = some (m, st) := by
  have he : m.next h = h := hr.1.1
  simp [genc_dlist_for_each_remove, genc_dlist_is_empty, he]

theorem dlist_loop_step {σ : Type} (body : σ → DMem → Int → σ × Bool) (h : Nat)
    (offset : Int) (fuel : Nat) (m : DMem) (st : σ) (x : Nat) (t : List Nat)
    (hr : Ring m h (x :: t)) :
    genc_dlist_for_each_remove body h offset (fuel + 1) m st =
      if (body st (genc_dlist_remove m x).1 ((x : Int) - offset)).2 then
        some ((genc_dlist_remove m x).1,
          (body st (genc_dlist_remove m x).1 ((x : Int) - offset)).1)
      else genc_dlist_for_each_remove body h offset fuel (genc_dlist_remove m x).1
        (body st (genc_dlist_remove m x).1 ((x : Int) - offset)).1 := by
  have h1 : m.next h = x := hr.1.1
  have h2 : x ≠ h := by
    intro hh
    exact (List.nodup_cons.mp hr.2).1 (by simp [hh])
  simp [genc_dlist_for_each_remove, genc_dlist_is_empty, h1, h2, genc_dlist_remove_object,
    genc_container_of_helper, genc_dlist_remove]

theorem dlist_loop_log (k : Nat) (offset : Int) (h : Nat) (xs : List Nat) (m : DMem)
    (st : List Int) (fuel : Nat) (hr : Ring m h xs) :
    (st.length < k → k ≤ st.length + xs.length → k - st.length ≤ fuel →
      ∃ m1, genc_dlist_for_each_remove (dlistLogBody k) h offset fuel m st =
          some (m1, st ++ (xs.take (k - st.length)).map (fun (x : Nat) => (x : Int) - offset)) ∧
        Ring m1 h (xs.drop (k - st.length))) ∧
    (k ≤ st.length → xs.length < fuel →
      ∃ m1, genc_dlist_for_each_remove (dlistLogBody k) h offset fuel m st =
          some (m1, st ++ xs.map (fun (x : Nat) => (x : Int) - offset)) ∧
        Ring m1 h []) := by
  induction xs generalizing m st fuel with
  | nil =>
    refine ⟨fun h1 h2 _ => ?_, fun _ h2 => ?_⟩
    · simp at h2
      omega
    · cases fuel with
      | zero => simp at h2
      | succ f => exact ⟨m, by simp [dlist_loop_stop _ h offset f m st hr], hr⟩
  | cons x t ih =>
    have hr1 : Ring (genc_dlist_remove m x).1 h t := by
      have := remove_ring m h x [] t (by simpa using hr)
      simpa using this
    refine ⟨fun h1 h2 h3 => ?_, fun h1 h2 => ?_⟩
    · obtain ⟨j, hj⟩ : ∃ j, k - st.length = j + 1 := ⟨k - st.length - 1, by omega⟩
      cases fuel with
      | zero => omega
      | succ f =>
        rw [dlist_loop_step _ h offset f m st x t hr, hj]
        by_cases hk : st.length + 1 = k
        · have hj0 : j = 0 := by omega
          subst hj0
          refine ⟨(genc_dlist_remove m x).1, ?_, ?_⟩
          · simp [dlistLogBody, hk]
          · simpa using hr1
        · simp only [dlistLogBody, hk, decide_False, Bool.false_eq_true, if_false]
          have hlen : (st ++ [(x : Int) - offset]).length = st.length + 1 := by simp
          obtain ⟨m1, e1, e2⟩ := (ih _ (st ++ [(x : Int) - offset]) f hr1).1
            (by rw [hlen]; omega) (by rw [hlen]; simp at h2; omega) (by rw [hlen]; omega)
          have hj2 : k - (st ++ [(x : Int) - offset]).length = j := by
            rw [hlen]
            omega
          rw [hj2] at e1 e2
          refine ⟨m1, ?_, ?_⟩
          · rw [e1]
            simp
          · simpa using e2
    · cases fuel with
      | zero => simp at h2
      | succ f =>
        rw [dlist_loop_step _ h offset f m st x t hr]
        have hk : ¬ st.length + 1 = k := by omega
        simp only [dlistLogBody, hk, decide_False, Bool.false_eq_true, if_false]
        obtain ⟨m1, e1, e2⟩ := (ih _ (st ++ [(x : Int) - offset]) f hr1).2
          (by simp; omega) (by simpa using h2)
        refine ⟨m1, ?_, e2⟩
        rw [e1]
        simp

theorem dlist_loop_any {σ : Type} (body : σ → DMem → Int → σ × Bool) (h : Nat)
    (offset : Int) (xs : List Nat) (m : DMem) (st : σ) (fuel : Nat)
    (hr : Ring m h xs) (hf : xs.length < fuel) :
    ∃ j m1 st1, j ≤ xs.length ∧
      genc_dlist_for_each_remove body h offset fuel m st = some (m1, st1) ∧
      Ring m1 h (xs.drop j) := by
  induction xs generalizing m st fuel with
  | nil =>
    cases fuel with
    | zero => simp at hf
    | succ f =>
      exact ⟨0, m, st, by simp, dlist_loop_stop body h offset f m st hr, by simpa using hr⟩
  | cons x t ih =>
    cases fuel with
    | zero => simp at hf
    | succ f =>
      have hr1 : Ring (genc_dlist_remove m x).1 h t := by
        have := remove_ring m h x [] t (by simpa using hr)
        simpa using this
      rw [dlist_loop_step body h offset f m st x t hr]
      by_cases hb : (body st (genc_dlist_remove m x).1 ((x : Int) - offset)).2 = true
      · refine ⟨1, (genc_dlist_remove m x).1,
          (body st (genc_dlist_remove m x).1 ((x : Int) - offset)).1, by simp,
          by simp only [hb, if_true], ?_⟩
        simpa using hr1
      · obtain ⟨j, m1, st1, hj, e1, e2⟩ := ih (genc_dlist_remove m x).1
          (body st (genc_dlist_remove m x).1 ((x : Int) - offset)).1 f hr1
          (by simpa using hf)
        refine ⟨j + 1, m1, st1, by simpa using hj, ?_, by simpa using e2⟩
        simp only [hb, Bool.false_eq_true, if_false]
        exact e1

/-- C18 (abandonable removing iteration, doubly-linked): for a well-formed ring with sentinel
`h` and data nodes `xs`, a `genc_dlist_for_each_remove` loop left with `break` during its
`k`-th body execution (`1 <= k <= xs.length`) ends within `k` removals, has bound the loop
variable to the records of the first `k` nodes in order, and leaves a well-formed ring whose
forward traversal yields the remaining nodes and whose nodes all satisfy the ring invariant; a
loop never left early ends after exactly `xs.length` body executions with
`genc_dlist_is_empty` non-zero; the record of the sentinel is never bound to the loop
variable and the sentinel stays in the ring. Whatever the body, and wherever it leaves the
loop, the loop ends and leaves a well-formed ring of `h` with a suffix of `xs`. -/
theorem genc_dlist_for_each_remove_abandon (m : DMem) (h : Nat) (offset : Int)
    (xs : List Nat) (k fuel : Nat) {σ : Type} (body : σ → DMem → Int → σ × Bool) (st : σ)
    (hr : Ring m h xs) :
    (1 ≤ k → k ≤ xs.length → k ≤ fuel →
      ∃ m1, genc_dlist_for_each_remove (dlistLogBody k) h offset fuel m [] =
          some (m1, (xs.take k).map (fun (x : Nat) => (x : Int) - offset)) ∧
        Ring m1 h (xs.drop k) ∧
        dlist_forward m1 h (xs.length + 1) (m1.next h) = some (xs.drop k) ∧
        ∀ N ∈ h :: xs.drop k, m1.prev (m1.next N) = N ∧ m1.next (m1.prev N) = N) ∧
    (xs.length < fuel →
      ∃ m1, genc_dlist_for_each_remove (dlistLogBody 0) h offset fuel m [] =
          some (m1, xs.map (fun (x : Nat) => (x : Int) - offset)) ∧
        Ring m1 h [] ∧ genc_dlist_is_empty m1 h ≠ 0) ∧
    ((h : Int) - offset ∉ xs.map (fun (x : Nat) => (x : Int) - offset)) ∧
    (xs.length < fuel →
      ∃ j m1 st1, j ≤ xs.length ∧
        genc_dlist_for_each_remove body h offset fuel m st = some (m1, st1) ∧
        Ring m1 h (xs.drop j)) := by
  refine ⟨fun h1 h2 h3 => ?_, fun h1 => ?_, ?_,
    fun h1 => dlist_loop_any body h offset xs m st fuel hr h1⟩
  · obtain ⟨m1, e1, e2⟩ := (dlist_loop_log k offset h xs m [] fuel hr).1 (by simpa using h1)
      (by simpa using h2) (by simpa using h3)
    refine ⟨m1, by simpa using e1, by simpa using e2, ?_, ?_⟩
    · have e3 : Ring m1 h (xs.drop k) := by simpa using e2
      exact ring_forward m1 h _ e3 _ (by simp; omega)
    · have e3 : Ring m1 h (xs.drop k) := by simpa using e2
      obtain ⟨a1, a2⟩ := dseg_links m1 _ h h e3.1
      intro N hN
      refine ⟨a1 N hN, a2 N ?_⟩
      simp only [List.mem_cons] at hN
      simp only [List.mem_append, List.mem_singleton]
      exact hN.symm
  · obtain ⟨m1, e1, e2⟩ := (dlist_loop_log 0 offset h xs m [] fuel hr).2 (by simp) h1
    refine ⟨m1, by simpa using e1, e2, ?_⟩
    have he : m1.next h = h := e2.1.1
    simp [genc_dlist_is_empty, he]
  · intro hmem
    rw [List.mem_map] at hmem
    obtain ⟨x, hx, e⟩ := hmem
    have : x = h := by
      have e2 : (x : Int) = (h : Int) := by linarith
      exact_mod_cast e2
    rw [this] at hx
    exact (List.nodup_cons.mp hr.2).1 hx

/-- Witness for C18: over the ring 0 -> 1 -> 2 -> 3 (list heads at offset 0 of their records),
a loop left in its second body execution has seen the records 1 and 2 and leaves the ring
0 -> 3; a loop never left early sees 1, 2, 3 and leaves the list empty. -/
theorem genc_dlist_for_each_remove_abandon_witness :
    Ring dmemABC 0 [1, 2, 3] ∧
    (∃ m1, genc_dlist_for_each_remove (dlistLogBody 2) 0 0 2 dmemABC [] =
        some (m1, [1, 2]) ∧ Ring m1 0 [3]) ∧
    (∃ m1, genc_dlist_for_each_remove (dlistLogBody 0) 0 0 4 dmemABC [] =
        some (m1, [1, 2, 3]) ∧ genc_dlist_is_empty m1 0 ≠ 0) := by
  have hr : Ring dmemABC 0 [1, 2, 3] := by decide
  obtain ⟨m1, e1, e2, _⟩ :=
    (genc_dlist_for_each_remove_abandon dmemABC 0 0 [1, 2, 3] 2 2 (dlistLogBody 2) [] hr).1
      (by decide) (by decide) (by decide)
  obtain ⟨m2, f1, _, f3⟩ :=
    (genc_dlist_for_each_remove_abandon dmemABC 0 0 [1, 2, 3] 0 4 (dlistLogBody 0) [] hr).2.1
      (by decide)
  exact ⟨hr, ⟨m1, e1, e2⟩, ⟨m2, f1, f3⟩⟩

/-! ## Queue: the tail slot and the push/pop round trip -/

theorem mem_ext (a b : Mem) (h1 : a.next = b.next) (h2 : a.queue = b.queue) : a = b := by
  cases a
  cases b
  simp only [Mem.mk.injEq]
  exact ⟨h1, h2⟩

theorem push_back_old_tail (m : Mem) (q n : Nat) (s : List Nat) (hq : QueueInv m q s)
    (hn : n ∉ s) : (genc_slq_push_back m q n).load (m.queue q).tail = some n := by
  have hi := push_back_inv m q n s hq hn
  obtain ⟨hc, ht⟩ := hq
  rcases nil_or_snoc s with rfl | ⟨l, last, rfl⟩
  · rw [ht, tailSlotOf_nil]
    have := hi.1
    simp only [List.nil_append, lseg_cons] at this
    exact this.1
  · rw [ht, tailSlotOf_snoc]
    have := hi.1
    rw [lseg_snoc, lseg_snoc] at this
    exact this.1.2

/-- C19 (push_back advances the tail slot): for a queue satisfying the tail-slot invariant
with contents `s` and a node `n` not in it, the tail slot before the call is the queue's head
slot if `s` is empty and otherwise the last node's `next` field; after `genc_slq_push_back`
that slot holds `n`, `n.next` is none and the tail slot is `n`'s own `next` field. The new tail
is exactly the value `genc_slist_insert_at` yields: with any implementation of it in place,
the tail after the call is the value that implementation returned, so it is `n`'s `next` field
exactly when that value is. -/
theorem genc_slq_push_back_advances_tail (m : Mem) (q n : Nat) (s : List Nat)
    (hq : QueueInv m q s) (hn : n ∉ s) :
    (m.queue q).tail = tailSlotOf q s ∧
    (genc_slq_push_back m q n).load (m.queue q).tail = some n ∧
    (genc_slq_push_back m q n).next n = none ∧
    ((genc_slq_push_back m q n).queue q).tail = .next n ∧
    genc_slq_push_back m q n = push_back_via genc_slist_insert_at m q n ∧
    (genc_slist_insert_at m n (m.queue q).tail).2 = .next n ∧
    ∀ ins : Mem → Nat → Slot → Mem × Slot,
      ((push_back_via ins m q n).queue q).tail = (ins m n (m.queue q).tail).2 ∧
      (((push_back_via ins m q n).queue q).tail = .next n ↔
        (ins m n (m.queue q).tail).2 = .next n) := by
  have hi := push_back_inv m q n s hq hn
  refine ⟨hq.2, push_back_old_tail m q n s hq hn, ?_, ?_, rfl, rfl, ?_⟩
  · exact ((lseg_snoc ..).mp hi.1).2
  · rw [hi.2, tailSlotOf_snoc]
  · intro ins
    have e : ((push_back_via ins m q n).queue q).tail = (ins m n (m.queue q).tail).2 := by
      simp [push_back_via, Mem.setTail]
    exact ⟨e, by rw [e]⟩

/-- Witness for C19: pushing node 30 to the back of the queue at address 0 holding 10, 20. -/
theorem genc_slq_push_back_advances_tail_witness :
    QueueInv memTwo 0 [10, 20] ∧ 30 ∉ [10, 20] ∧
    (memTwo.queue 0).tail = .next 20 ∧
    (genc_slq_push_back memTwo 0 30).next 20 = some 30 ∧
    (genc_slq_push_back memTwo 0 30).next 30 = none ∧
    ((genc_slq_push_back memTwo 0 30).queue 0).tail = .next 30 :=
  have h := genc_slq_push_back_advances_tail memTwo 0 30 [10, 20] (by decide) (by decide)
  ⟨by decide, by decide, h.1, by decide, h.2.2.1, h.2.2.2.1⟩

/-- C20 (push_front / pop_front round trip): for a queue satisfying the tail-slot invariant,
empty or not, and a node `n` whose `next` field is none, `genc_slq_push_front` followed by
`genc_slq_pop_front` returns `n` and gives back exactly the memory before the push: the
queue's head and tail slot, `n.next` and every other node's `next` field. -/
theorem genc_slq_push_front_pop_front (m : Mem) (q n : Nat) (hinv : TailSlotInv m q)
    (hn : m.next n = none) :
    genc_slq_pop_front (genc_slq_push_front m q n) q = (m, some n) := by
  unfold TailSlotInv at hinv
  cases hh : (m.queue q).head with
  | none =>
    rw [hh] at hinv
    rw [push_front_empty m q n hh]
    obtain ⟨h1, h2⟩ := push_back_next_nil m q n hinv hh
    have hhead : ((genc_slq_push_back m q n).queue q).head = some n := by simp [h2]
    obtain ⟨p0, p1, p2⟩ := pop_front_fields _ q n hhead
    refine Prod.ext (mem_ext _ _ ?_ ?_) p0
    · rw [p1, h1]
      funext k
      by_cases hk : k = n
      · simp [hk, hn]
      · simp [hk]
    · rw [p2, h1, h2]
      funext k
      by_cases hk : k = q
      · subst hk
        simp only [if_true]
        cases hmq : m.queue k with
        | mk hd tl =>
          rw [hmq] at hh hinv
          simp only at hh hinv
          rw [hh, hinv]
      · simp [hk]
  | some a =>
    obtain ⟨h1, h2⟩ := push_front_fields m q n a hh
    have hhead : ((genc_slq_push_front m q n).queue q).head = some n := by simp [h2]
    obtain ⟨p0, p1, p2⟩ := pop_front_fields _ q n hhead
    refine Prod.ext (mem_ext _ _ ?_ ?_) p0
    · rw [p1, h1]
      funext k
      by_cases hk : k = n
      · simp [hk, hn]
      · simp [hk]
    · rw [p2, h1, h2]
      funext k
      by_cases hk : k = q
      · subst hk
        simp only [if_true]
        cases hmq : m.queue k with
        | mk hd tl =>
          rw [hmq] at hh
          simp only at hh
          rw [hh]
      · simp [hk]

/-- Witness for C20: pushing the detached node 30 to the front of the queue holding 10, 20
and popping it again, and the same on the empty queue at address 0 of `mem0`. -/
theorem genc_slq_push_front_pop_front_witness :
    TailSlotInv memTwo 0 ∧ memTwo.next 30 = none ∧
    genc_slq_pop_front (genc_slq_push_front memTwo 0 30) 0 = (memTwo, some 30) ∧
    genc_slq_pop_front (genc_slq_push_front mem0 0 30) 0 = (mem0, some 30) :=
  have h1 : TailSlotInv memTwo 0 := tailSlotInv_of_queueInv memTwo 0 [10, 20] (by decide)
  have h2 : TailSlotInv mem0 0 := tailSlotInv_of_queueInv mem0 0 [] (by decide)
  ⟨h1, by decide, genc_slq_push_front_pop_front memTwo 0 30 h1 (by decide),
    genc_slq_push_front_pop_front mem0 0 30 h2 rfl⟩

end Genccont
